import Mathlib

/-!
# taskpool: an interleaving model of the dispatch core

The Go package `pool` (src/taskmaster.go, src/work_pool.go) is embedded as a
labelled transition system.  Every goroutine of the program is a program
counter over the statements of its source function:

* `LoopPc`  : the goroutine started by `go p.loop()` (taskmaster.go 18-41);
* `SubPc`   : one call of `SendWork` / `SendWorkWithTimeout`, and for the
  asynchronous variants the goroutine wrapped around it (work_pool.go 123-196);
* `ClosePc` : the body of `Close` while it holds the write lock
  (work_pool.go 103-121 with `close` and `join` of taskmaster.go 56-74).

`step` executes one statement of one goroutine; `exec` a sequence of them;
`Reachable` collects the states of all interleavings.

What the model takes from Go:

* Channels are unbuffered, so a send and the matching receive are one joint
  transition of the two goroutines.  A receive from a closed channel returns at
  once; an operation on a nil channel, a send on or a `close` of a closed
  channel has no transition.
* `sync.RWMutex` is represented by the program counters: the readers are the
  submissions between `RLock` and the deferred `RUnlock`, the writer is the
  `Close` in progress.  Go lets a waiting writer hold new readers back; the
  model leaves that out, which only adds interleavings.
* `Run` holds the write lock and blocks nowhere, so it is one transition.  The
  loops it starts can only execute statements of their poll before `Run`
  unlocks (nobody can receive from them), and those commute with the rest of
  `Run`.
* Time is a logical clock advanced by `Action.tick`; a timer can fire once
  the clock has reached the instant `time.After` fixed for it.  A
  `time.Duration` is an `int64`: the difference `timeout - time.Since(before)`
  of work_pool.go 142 is computed modulo `2^64` (`wrapInt64`).
* `reflect.Select` and `select` may take any case that can proceed.

What the model assumes of the workers: the result of `Job` is a function of
its input (the call need not return: its transition may never be taken),
`Ready()` may return anything (for a `SimpleWorker`: true), and every
controller has a worker of its own.

Fields marked *ghost* are history variables: no transition reads them to
decide what the program does.
-/

namespace Pool

/-- The values passed as `interface{}` job inputs and outputs. -/
abbrev Data := Int

/-- The four error values of work_pool.go 11-16. -/
inductive PoolError where
  | ErrPoolAlreadyRunning
  | ErrPoolNotRunning
  | ErrWorkerClosed
  | ErrJobTimedOut
  deriving DecidableEq, Repr

/-- The dynamic type of a worker: `SimpleWorker` (whose `Ready` is constantly
true), another type implementing `Worker` only, or a type that also
implements `AdvancedWorker`. -/
inductive WorkerKind where
  | simple
  | basic
  | advanced
  deriving DecidableEq, Repr

/-- A `Worker`: its `Job` method and its dynamic type.  The result of a call of
`Ready()` is supplied by the transition label (`Action.loop`). -/
structure Worker where
  job : Data → Data
  kind : WorkerKind

/-- The result `Ready()` may return: `SimpleWorker.Ready` returns true
(work_pool.go 48-50), any other worker may answer either way. -/
def Worker.readyMay (w : Worker) (r : Bool) : Bool :=
  match w.kind with
  | .simple => r
  | _ => true

/-- The type assertion `p.worker.(AdvancedWorker)`. -/
def Worker.isAdvanced (w : Worker) : Bool :=
  match w.kind with
  | .advanced => true
  | _ => false

/-- State of an unbuffered Go channel: the nil channel of a zero-valued field,
a channel returned by `make`, or a closed channel. -/
inductive Chan where
  | nil
  | opened
  | closed
  deriving DecidableEq, Repr

/-- Program counter of the goroutine running `taskMaster.loop`.
`poll`/`chk` stand for both copies of the readiness poll (lines 19-24 and
30-35), `sendReady` for both `p.chReady <- 1` (lines 26 and 36): either copy
continues at the head of `for data := range p.chInput` (line 28). -/
inductive LoopPc where
  /-- no goroutine has been started for this controller -/
  | idle
  /-- about to call `p.worker.Ready()` -/
  | poll
  /-- `Ready()` returned false; about to load `p.open` -/
  | chk
  /-- blocked in `p.chReady <- 1` -/
  | sendReady
  /-- blocked in the receive of `range p.chInput` -/
  | recvInput
  /-- received `x`; inside `p.worker.Job(x)` -/
  | job (x : Data)
  /-- blocked in `p.chOutput <- r` -/
  | sendOutput (r : Data)
  /-- left the range loop; about to `close(p.chReady)` -/
  | closeReady
  /-- about to `close(p.chOutput)` -/
  | closeOutput
  /-- `loop` has returned -/
  | exited
  deriving DecidableEq, Repr

/-- A goroutine that has been started and has not returned. -/
def LoopPc.alive : LoopPc → Bool
  | .idle => false
  | .exited => false
  | _ => true

/-- The struct `taskMaster` together with the goroutine it starts. -/
structure taskMaster where
  chReady : Chan
  chInput : Chan
  chOutput : Chan
  /-- the field `open` -/
  openFlag : Nat
  worker : Worker
  /-- the goroutine of the latest `go p.loop()` -/
  loop : LoopPc
  /-- ghost: goroutines that were still alive when `run` started another -/
  leaked : Nat
  /-- ghost: the submission that consumed the last readiness signal and has
  not yet left the controller -/
  owner : Option Nat
  /-- ghost: the last poll ended by `break` (line 21 or 32) -/
  viaBreak : Bool
  /-- ghost: calls of `run`, `close`, and returns of `join` -/
  runs : Nat
  closes : Nat
  joins : Nat
  /-- ghost: calls of `Initialize` and `Terminate` -/
  inits : Nat
  terms : Nat
  /-- ghost: completed sends on `chReady`, and how many of them `join` received -/
  readySent : Nat
  joinRecv : Nat
  /-- ghost: values received from `chInput`, values taken from `chOutput` -/
  inputs : Nat
  outputs : Nat

/-- The pair `(interface{}, error)` returned by a submission. -/
structure Ret where
  val : Option Data
  err : Option PoolError
  deriving DecidableEq, Repr

/-- Program counter of one submission. -/
inductive SubPc where
  /-- called; about to `p.RLock()` -/
  | start
  /-- read lock held; about to test `p.isRunning()` -/
  | locked
  /-- inside `reflect.Select` -/
  | select
  /-- blocked in `p.masters[chosen].chInput <- data` -/
  | sendInput (chosen : Nat)
  /-- timed variant only: the send has completed; about to enter the second
  `select`, which first evaluates `time.After(timeout - time.Since(before))` -/
  | armTimer (chosen : Nat)
  /-- blocked receiving from `p.masters[chosen].chOutput` (and, in the timed
  variant, from the second timer) -/
  | waitOutput (chosen : Nat)
  /-- return value fixed; the deferred `p.RUnlock()` is pending -/
  | unlock (r : Ret)
  /-- the synchronous call has returned `r` -/
  | returned (r : Ret)
  /-- asynchronous only: `after(result, err)` has returned -/
  | afterDone (r : Ret)
  /-- asynchronous only: the goroutine has exited (deferred decrement done) -/
  | finished (r : Ret)
  deriving DecidableEq, Repr

/-- The submission holds the read lock. -/
def SubPc.holdsRLock : SubPc → Bool
  | .locked => true
  | .select => true
  | .sendInput _ => true
  | .armTimer _ => true
  | .waitOutput _ => true
  | .unlock _ => true
  | _ => false

/-- One call of a `Send*` method. -/
structure Sub where
  data : Data
  /-- `none` for `SendWork`, `some d` for `SendWorkWithTimeout(d, ·)` -/
  timeout : Option Int
  /-- `none` for a synchronous call, `some b` for an asynchronous one where
  `b` says whether `after != nil` -/
  async : Option Bool
  pc : SubPc
  /-- `before := time.Now()` -/
  before : Int
  /-- the instant at which the channel of the latest `time.After` delivers -/
  timer : Int
  /-- ghost: the select case this call claimed -/
  claimed : Option Nat
  deriving DecidableEq, Repr

/-- The goroutine of an asynchronous submission has exited. -/
def SubPc.isFinished : SubPc → Bool
  | .finished _ => true
  | _ => false

/-- An asynchronous submission whose goroutine has not yet exited. -/
def Sub.outstanding (t : Sub) : Bool := t.async.isSome && !t.pc.isFinished

/-- An asynchronous submission. -/
def Sub.isAsync (t : Sub) : Bool := t.async.isSome

/-- The struct `TaskPool`.  A select case `reflect.SelectCase{Dir: SelectRecv,
Chan: w.chReady}` is recorded as the index of the controller `w`: channels are
replaced only by `run`, which `Run` calls for every controller while it
rebuilds `selects`. -/
structure TaskPool where
  masters : List taskMaster
  selects : List Nat
  running : Nat
  /-- an `int32` -/
  pending : Int

/-- Program counter of the `Close` that holds the write lock. -/
inductive ClosePc where
  /-- no `Close` is past its `isRunning` test -/
  | idle
  /-- first loop, controller `k`: about to `close(p.chInput)` -/
  | closeInput (k : Nat)
  /-- first loop, controller `k`: about to `atomic.StoreUint32(&p.open, 0)` -/
  | storeOpen (k : Nat)
  /-- second loop, `join` of controller `k`: about to `<-p.chReady` -/
  | joinReady (k : Nat)
  /-- `join` of controller `k`: got `ready`, about to `<-p.chOutput` -/
  | joinOutput (k : Nat) (ready : Bool)
  /-- `join` of controller `k`: left its loop, about to call `Terminate` -/
  | joinTerm (k : Nat)
  deriving DecidableEq, Repr

/-- The whole program state. -/
structure State where
  pool : TaskPool
  closer : ClosePc
  subs : List Sub
  /-- the clock read by `time.Now()` -/
  now : Int

/-- Transition labels: which goroutine moves, and the choices the
environment makes for it. -/
inductive Action where
  /-- time passes -/
  | tick
  /-- some goroutine executes `p.Run()` -/
  | run
  /-- some goroutine calls `p.Close()` and gets the write lock -/
  | close
  /-- the goroutine inside `Close` executes its next statement -/
  | closeStep
  /-- a goroutine calls `SendWork(x)` (`tmo = none`) or
  `SendWorkWithTimeout(d, x)` (`tmo = some d`) -/
  | call (x : Data) (tmo : Option Int)
  /-- a goroutine calls `SendAsyncWork` / `SendAsyncWorkWithTimeout`;
  `hasAfter` says whether `after != nil` -/
  | callAsync (x : Data) (tmo : Option Int) (hasAfter : Bool)
  /-- submission `j` executes its next statement -/
  | sub (j : Nat)
  /-- `reflect.Select` of submission `j` returns `chosen = c` -/
  | subSelect (j c : Nat)
  /-- the second timer of submission `j` fires -/
  | subTimeout (j : Nat)
  /-- the loop of controller `i` executes its next statement; `r` is what
  `Ready()` returns if that statement calls it -/
  | loop (i : Nat) (r : Bool)
  deriving DecidableEq, Repr

/-- Arithmetic of `int32`: the representative in `[-2^31, 2^31)`. -/
def wrapInt32 (z : Int) : Int := (z + 2147483648) % 4294967296 - 2147483648

/-- Arithmetic of `int64`, the type under `time.Duration`: the representative
in `[-2^63, 2^63)`. -/
def wrapInt64 (z : Int) : Int :=
  (z + 9223372036854775808) % 18446744073709551616 - 9223372036854775808

/-- `time.Since(before)` evaluated at the instant `now`: the elapsed time as a
`Duration`; `Time.Sub` saturates at the smallest and the largest `Duration`. -/
def timeSince (now before : Int) : Int :=
  max (-9223372036854775808) (min (now - before) 9223372036854775807)

/-- `time.After(d)` called at the instant `now`: the instant at which its
channel delivers.  With `d ≤ 0` that is `now` itself; otherwise `now + d`,
which the runtime saturates at the largest `int64`. -/
def timeAfter (now d : Int) : Int :=
  if d ≤ 0 then now else min (now + d) 9223372036854775807

/-! ## work_pool.go: constructors and accessors -/

/-- `NewCustomPool` (work_pool.go 61-68). -/
def NewCustomPool (workers : List Worker) : TaskPool :=
  { masters := workers.map fun w =>
      { chReady := .nil, chInput := .nil, chOutput := .nil, openFlag := 0, worker := w,
        loop := .idle, leaked := 0, owner := none, viaBreak := false,
        runs := 0, closes := 0, joins := 0, inits := 0, terms := 0,
        readySent := 0, joinRecv := 0, inputs := 0, outputs := 0 }
    selects := []
    running := 0
    pending := 0 }

/-- `NewSimplePool` (work_pool.go 52-59): `n` controllers, each with its own
`SimpleWorker{job}`. -/
def NewSimplePool (n : Nat) (job : Data → Data) : TaskPool :=
  NewCustomPool (List.replicate n { job := job, kind := .simple })

/-- `isRunning` (work_pool.go 70-72). -/
def TaskPool.isRunning (p : TaskPool) : Bool := p.running == 1

/-- `setRunning` (work_pool.go 74-80). -/
def TaskPool.setRunning (p : TaskPool) (running : Bool) : TaskPool :=
  { p with running := if running then 1 else 0 }

/-- `Size` (work_pool.go 202-204). -/
def TaskPool.Size (p : TaskPool) : Nat := p.masters.length

/-- `Pending` (work_pool.go 198-200). -/
def TaskPool.Pending (p : TaskPool) : Int := p.pending

/-! ## taskmaster.go and the transitions -/

/-- `taskMaster.run` (taskmaster.go 43-54): `Initialize` for an advanced
worker, three fresh channels, `open = 1`, `go p.loop()`. -/
def taskMaster.run (m : taskMaster) : taskMaster :=
  { m with
    inits := if m.worker.isAdvanced then m.inits + 1 else m.inits
    chReady := .opened
    chInput := .opened
    chOutput := .opened
    openFlag := 1
    leaked := if m.loop.alive then m.leaked + 1 else m.leaked
    loop := .poll
    runs := m.runs + 1 }

/-- `Run` (work_pool.go 82-101) with the lock held: the new pool and the
error returned. -/
def TaskPool.Run (p : TaskPool) : TaskPool × Option PoolError :=
  if !p.isRunning then
    (({ p with masters := p.masters.map taskMaster.run
               selects := List.range p.masters.length }).setRunning true, none)
  else
    (p, some .ErrPoolAlreadyRunning)

/-- Replace controller `i`. -/
def State.setMaster (s : State) (i : Nat) (m : taskMaster) : State :=
  { s with pool := { s.pool with masters := s.pool.masters.set i m } }

/-- Replace submission `j`. -/
def State.setSub (s : State) (j : Nat) (t : Sub) : State :=
  { s with subs := s.subs.set j t }

/-- Move the `Close` in progress to `c`. -/
def State.setCloser (s : State) (c : ClosePc) : State :=
  { s with closer := c }

/-- No goroutine holds the lock of the pool in either mode. -/
def State.lockFree (s : State) : Bool :=
  s.closer == .idle && s.subs.all fun t => !t.pc.holdsRLock

/-- One statement of `taskMaster.loop` (taskmaster.go 18-41) that needs no
partner.  The channel sends (`sendReady`, `sendOutput`) and the receive of a
value from `chInput` happen in the transition of the partner. -/
def loopStep (m : taskMaster) (r : Bool) : Option taskMaster :=
  match m.loop with
  | .poll =>
    if m.worker.readyMay r then
      if r then some { m with loop := .sendReady, viaBreak := false }
      else some { m with loop := .chk }
    else none
  | .chk =>
    if m.openFlag = 0 then some { m with loop := .sendReady, viaBreak := true }
    else some { m with loop := .poll }
  | .recvInput =>
    match m.chInput with
    | .closed => some { m with loop := .closeReady }
    | _ => none
  | .job x => some { m with loop := .sendOutput (m.worker.job x) }
  | .closeReady =>
    match m.chReady with
    | .opened => some { m with chReady := .closed, loop := .closeOutput }
    | _ => none
  | .closeOutput =>
    match m.chOutput with
    | .opened => some { m with chOutput := .closed, loop := .exited }
    | _ => none
  | _ => none

/-- `Close` (work_pool.go 103-121) up to its `isRunning` test, with the write
lock held: a pool that is not running is left as it is and
`ErrPoolNotRunning` is returned, otherwise the first loop is entered. -/
def closeEnter (s : State) : State × Option PoolError :=
  if s.pool.isRunning then (s.setCloser (.closeInput 0), none)
  else (s, some .ErrPoolNotRunning)

/-- The end of `Close`: `p.setRunning(false)`, `return nil`, and the deferred
`Unlock`.  No goroutine reads `running` without the lock, so the three are one
transition. -/
def closeExit (s : State) : State × Option PoolError :=
  ({ s with pool := s.pool.setRunning false, closer := .idle }, none)

/-- One statement of `Close` after its test: `close` of each controller
(taskmaster.go 56-60), then `join` of each controller (taskmaster.go 62-74).
A receive in `join` returns a value when the loop is blocked in the matching
send, returns the zero value when the channel is closed, and blocks
otherwise. -/
def closeStep (s : State) : Option State :=
  match s.closer with
  | .idle => none
  | .closeInput k =>
    match s.pool.masters[k]? with
    | none => some (s.setCloser (.joinReady 0))
    | some m =>
      match m.chInput with
      | .opened => some ((s.setMaster k { m with chInput := .closed }).setCloser (.storeOpen k))
      | _ => none
  | .storeOpen k =>
    match s.pool.masters[k]? with
    | none => none
    | some m =>
      some ((s.setMaster k { m with openFlag := 0, closes := m.closes + 1 }).setCloser
        (.closeInput (k + 1)))
  | .joinReady k =>
    match s.pool.masters[k]? with
    | none => some (closeExit s).1
    | some m =>
      match m.chReady with
      | .closed => some (s.setCloser (.joinOutput k false))
      | .opened =>
        match m.loop with
        | .sendReady =>
          some ((s.setMaster k { m with loop := .recvInput, readySent := m.readySent + 1,
                                        joinRecv := m.joinRecv + 1 }).setCloser
            (.joinOutput k true))
        | _ => none
      | .nil => none
  | .joinOutput k ready =>
    match s.pool.masters[k]? with
    | none => none
    | some m =>
      match m.chOutput with
      | .closed =>
        if ready then some (s.setCloser (.joinReady k)) else some (s.setCloser (.joinTerm k))
      | .opened =>
        match m.loop with
        | .sendOutput _ =>
          some ((s.setMaster k { m with loop := .poll, outputs := m.outputs + 1 }).setCloser
            (.joinReady k))
        | _ => none
      | .nil => none
  | .joinTerm k =>
    match s.pool.masters[k]? with
    | none => none
    | some m =>
      some ((s.setMaster k { m with terms := if m.worker.isAdvanced then m.terms + 1 else m.terms
                                    joins := m.joins + 1 }).setCloser (.joinReady (k + 1)))

/-- The timer case of a timed submission can proceed: the clock has reached
the instant at which the channel of its latest `time.After` delivers. -/
def Sub.timerReady (t : Sub) (now : Int) : Bool :=
  match t.timeout with
  | none => false
  | some _ => decide (t.timer ≤ now)

/-- The statements of a submission that leave no choice (work_pool.go 123-196):
`RLock`, the `isRunning` test (followed, in a running pool, by
`before := time.Now()` and in the timed variant by `time.After(timeout)`), the
send on `chInput`, in the timed variant the evaluation of
`time.After(timeout - time.Since(before))` in `int64` arithmetic, the receive
from `chOutput`, the deferred `RUnlock`, and for an asynchronous call the
callback and the deferred decrement of `pending`. -/
def subStep (s : State) (j : Nat) : Option State :=
  match s.subs[j]? with
  | none => none
  | some t =>
    match t.pc with
    | .start =>
      if s.closer = .idle then some (s.setSub j { t with pc := .locked }) else none
    | .locked =>
      if s.pool.isRunning then
        some (s.setSub j { t with pc := .select, before := s.now,
                                  timer := match t.timeout with
                                    | some d => timeAfter s.now d
                                    | none => t.timer })
      else some (s.setSub j { t with pc := .unlock ⟨none, some .ErrPoolNotRunning⟩ })
    | .select => none
    | .sendInput i =>
      match s.pool.masters[i]? with
      | none => none
      | some m =>
        match m.chInput, m.loop with
        | .opened, .recvInput =>
          some ((s.setMaster i { m with loop := .job t.data, inputs := m.inputs + 1 }).setSub j
            { t with pc := match t.timeout with
                           | some _ => .armTimer i
                           | none => .waitOutput i })
        | _, _ => none
    | .armTimer i =>
      match t.timeout with
      | none => none
      | some d =>
        some (s.setSub j { t with pc := .waitOutput i,
                                  timer := timeAfter s.now (wrapInt64 (d - timeSince s.now t.before)) })
    | .waitOutput i =>
      match s.pool.masters[i]? with
      | none => none
      | some m =>
        match m.chOutput with
        | .closed =>
          some ((s.setMaster i { m with owner := none }).setSub j
            { t with pc := .unlock ⟨none, some .ErrWorkerClosed⟩ })
        | .opened =>
          match m.loop with
          | .sendOutput r =>
            some ((s.setMaster i { m with loop := .poll, outputs := m.outputs + 1,
                                          owner := none }).setSub j
              { t with pc := .unlock ⟨some r, none⟩ })
          | _ => none
        | .nil => none
    | .unlock r => some (s.setSub j { t with pc := .returned r })
    | .returned r =>
      match t.async with
      | none => none
      | some true => some (s.setSub j { t with pc := .afterDone r })
      | some false =>
        some ({ s with pool := { s.pool with pending := wrapInt32 (s.pool.pending - 1) } }.setSub j
          { t with pc := .finished r })
    | .afterDone r =>
      some ({ s with pool := { s.pool with pending := wrapInt32 (s.pool.pending - 1) } }.setSub j
        { t with pc := .finished r })
    | .finished _ => none

/-- The call of `reflect.Select` returns with `chosen = c` (work_pool.go 133,
172).  For `c < len(p.selects)` the case is the receive from the readiness
channel `p.selects[c]`: it returns a value when that loop is blocked in
`p.chReady <- 1`, and `ok = false` when the channel is closed.  In the timed
variant the case `c = len(p.selects)` is the timer. -/
def subSelect (s : State) (j c : Nat) : Option State :=
  match s.subs[j]? with
  | none => none
  | some t =>
    match t.pc with
    | .select =>
      match s.pool.selects[c]? with
      | some i =>
        match s.pool.masters[i]? with
        | none => none
        | some m =>
          match m.chReady with
          | .closed => some (s.setSub j { t with pc := .unlock ⟨none, some .ErrWorkerClosed⟩ })
          | .opened =>
            match m.loop with
            | .sendReady =>
              some ((s.setMaster i { m with loop := .recvInput, readySent := m.readySent + 1,
                                            owner := some j }).setSub j
                { t with pc := .sendInput c, claimed := some c })
            | _ => none
          | .nil => none
      | none =>
        if c = s.pool.selects.length ∧ t.timerReady s.now then
          some (s.setSub j { t with pc := .unlock ⟨none, some .ErrJobTimedOut⟩ })
        else none
    | _ => none

/-- The timer case of the second `select` (work_pool.go 142-143): the caller
stops waiting, the job stays with the worker. -/
def subTimeout (s : State) (j : Nat) : Option State :=
  match s.subs[j]? with
  | none => none
  | some t =>
    match t.pc with
    | .waitOutput i =>
      if t.timerReady s.now then
        match s.pool.masters[i]? with
        | none => none
        | some m =>
          some ((s.setMaster i { m with owner := none }).setSub j
            { t with pc := .unlock ⟨none, some .ErrJobTimedOut⟩ })
      else none
    | _ => none

/-- A new submission at the entry of its `Send*` method. -/
def Sub.new (x : Data) (tmo : Option Int) (async : Option Bool) : Sub :=
  { data := x, timeout := tmo, async := async, pc := .start, before := 0, timer := 0,
    claimed := none }

/-- One transition of the program; `none` when the label is not enabled. -/
def step (s : State) : Action → Option State
  | .tick => some { s with now := s.now + 1 }
  | .run => if s.lockFree then some { s with pool := s.pool.Run.1 } else none
  | .close => if s.lockFree then some (closeEnter s).1 else none
  | .closeStep => closeStep s
  | .call x tmo => some { s with subs := s.subs ++ [Sub.new x tmo none] }
  | .callAsync x tmo hasAfter =>
    some { s with pool := { s.pool with pending := wrapInt32 (s.pool.pending + 1) }
                  subs := s.subs ++ [Sub.new x tmo (some hasAfter)] }
  | .sub j => subStep s j
  | .subSelect j c => subSelect s j c
  | .subTimeout j => subTimeout s j
  | .loop i r =>
    match s.pool.masters[i]? with
    | none => none
    | some m => (loopStep m r).map (s.setMaster i)

/-- Execute a list of labels from `s`. -/
def exec (s : State) : List Action → Option State
  | [] => some s
  | a :: as => (step s a).bind fun s' => exec s' as

/-- The program just after the constructor returned `p`. -/
def State.init (p : TaskPool) : State :=
  { pool := p, closer := .idle, subs := [], now := 0 }

/-- States of a program that built its pool from `workers`. -/
def Reachable (workers : List Worker) (s : State) : Prop :=
  ∃ acts, exec (State.init (NewCustomPool workers)) acts = some s

/-! ## The invariant -/

/-- The loop is between the receive of an input and the hand-over of its result. -/
def LoopPc.busy : LoopPc → Bool
  | .job _ => true
  | .sendOutput _ => true
  | _ => false

/-- The loop has given its readiness signal away and not yet delivered a result. -/
def LoopPc.serving : LoopPc → Bool
  | .recvInput => true
  | .job _ => true
  | .sendOutput _ => true
  | _ => false

/-- Submission at `pc` has claimed controller `i` and not yet left it. -/
def SubPc.engaged (pc : SubPc) (i : Nat) : Prop :=
  pc = .sendInput i ∨ pc = .armTimer i ∨ pc = .waitOutput i

/-- Where a controller stands in the life cycle of the pool. -/
inductive Stage where
  | stopped
  | live
  | liveC
  | half
  | shut
  | shutOut
  | shutDone
  | joined
  deriving DecidableEq, Repr

/-- The stage of controller `i`, read off `running` and the progress of `Close`. -/
def stageOf (running : Nat) (c : ClosePc) (i : Nat) : Stage :=
  if running = 1 then
    match c with
    | .idle => .live
    | .closeInput k => if i < k then .shut else .liveC
    | .storeOpen k => if i < k then .shut else if i = k then .half else .liveC
    | .joinReady k => if i < k then .joined else .shut
    | .joinOutput k b => if i < k then .joined else if i = k then (if b then .shut else .shutOut) else .shut
    | .joinTerm k => if i < k then .joined else if i = k then .shutDone else .shut
  else .stopped

/-- The channels of a controller agree with the position of its loop. -/
def ChansOk (m : taskMaster) : Prop :=
  match m.loop with
  | .idle => m.chReady = .nil ∧ m.chInput = .nil ∧ m.chOutput = .nil
  | .closeReady => m.chReady = .opened ∧ m.chInput = .closed ∧ m.chOutput = .opened
  | .closeOutput => m.chReady = .closed ∧ m.chInput = .closed ∧ m.chOutput = .opened
  | .exited => m.chReady = .closed ∧ m.chInput = .closed ∧ m.chOutput = .closed
  | _ => m.chReady = .opened ∧ m.chInput ≠ .nil ∧ m.chOutput = .opened

/-- Facts about a controller that hold at every stage. -/
structure MBase (m : taskMaster) : Prop where
  chans : ChansOk m
  leaked : m.leaked = 0
  inits : m.inits = if m.worker.isAdvanced then m.runs else 0
  terms : m.terms = if m.worker.isAdvanced then m.joins else 0
  flow : m.inputs = m.outputs + if m.loop.busy then 1 else 0
  owner : m.owner ≠ none → m.loop.serving = true

/-- The ghost counters of a controller at a given stage. -/
def CountOk : Stage → taskMaster → Prop
  | .stopped, m => m.runs = m.closes ∧ m.runs = m.joins
  | .live, m => m.runs = m.closes + 1 ∧ m.runs = m.joins + 1
  | .liveC, m => m.runs = m.closes + 1 ∧ m.runs = m.joins + 1
  | .half, m => m.runs = m.closes + 1 ∧ m.runs = m.joins + 1
  | .shut, m => m.runs = m.closes ∧ m.runs = m.joins + 1
  | .shutOut, m => m.runs = m.closes ∧ m.runs = m.joins + 1
  | .shutDone, m => m.runs = m.closes ∧ m.runs = m.joins + 1
  | .joined, m => m.runs = m.closes ∧ m.runs = m.joins

/-- The flags, channels and loop of a controller at a given stage. -/
def ShapeOk : Stage → taskMaster → Prop
  | .stopped, m => m.loop.alive = false ∧ m.owner = none
  | .live, m => m.openFlag = 1 ∧ m.chInput = .opened ∧ (m.loop = .sendReady → m.viaBreak = false)
  | .liveC, m => m.openFlag = 1 ∧ m.chInput = .opened ∧ (m.loop = .sendReady → m.viaBreak = false) ∧
      m.owner = none
  | .half, m => m.openFlag = 1 ∧ m.chInput = .closed ∧ m.owner = none
  | .shut, m => m.openFlag = 0 ∧ m.chInput = .closed ∧ m.owner = none
  | .shutOut, m => m.openFlag = 0 ∧ m.chInput = .closed ∧ m.owner = none ∧ m.chReady = .closed
  | .shutDone, m => m.openFlag = 0 ∧ m.chInput = .closed ∧ m.owner = none ∧ m.loop = .exited
  | .joined, m => m.openFlag = 0 ∧ m.chInput = .closed ∧ m.owner = none ∧ m.loop = .exited

/-- A return value without error is the claimed worker's `Job` of the
submission's own input. -/
def RetOk (ws : List Worker) (t : Sub) (r : Ret) : Prop :=
  r.err = none → ∃ i w, t.claimed = some i ∧ ws[i]? = some w ∧ r.val = some (w.job t.data)

/-- Facts about submission `j` at its program counter. -/
def SubOk (ws : List Worker) (s : State) (j : Nat) (t : Sub) : Prop :=
  match t.pc with
  | .start => t.claimed = none
  | .locked => s.closer = .idle ∧ t.claimed = none
  | .select => s.closer = .idle ∧ s.pool.running = 1 ∧ t.before ≤ s.now ∧ t.claimed = none
  | .sendInput i => s.closer = .idle ∧ s.pool.running = 1 ∧ t.before ≤ s.now ∧ t.claimed = some i ∧
      ∃ m, s.pool.masters[i]? = some m ∧ m.owner = some j ∧ m.loop = .recvInput
  | .armTimer i => s.closer = .idle ∧ s.pool.running = 1 ∧ t.before ≤ s.now ∧ t.claimed = some i ∧
      ∃ m, s.pool.masters[i]? = some m ∧ m.owner = some j ∧
        (m.loop = .job t.data ∨ m.loop = .sendOutput (m.worker.job t.data))
  | .waitOutput i => s.closer = .idle ∧ s.pool.running = 1 ∧ t.before ≤ s.now ∧ t.claimed = some i ∧
      ∃ m, s.pool.masters[i]? = some m ∧ m.owner = some j ∧
        (m.loop = .job t.data ∨ m.loop = .sendOutput (m.worker.job t.data))
  | .unlock r => s.closer = .idle ∧ RetOk ws t r
  | .returned r => RetOk ws t r
  | .afterDone r => RetOk ws t r ∧ t.async = some true
  | .finished r => RetOk ws t r

/-- The timer of a submission.  Inside `reflect.Select` it is the one made by
`time.After(timeout)` at the instant `before`; in the second `select` it was
made at some instant `a` between `before` and now, with the duration
`timeout - time.Since(before)` computed at `a`. -/
def TimerOk (now : Int) (t : Sub) : Prop :=
  match t.pc with
  | .select => ∀ d, t.timeout = some d → t.timer = timeAfter t.before d
  | .waitOutput _ => ∀ d, t.timeout = some d →
      ∃ a, t.before ≤ a ∧ a ≤ now ∧ t.timer = timeAfter a (wrapInt64 (d - timeSince a t.before))
  | _ => True

/-- The submission has claimed controller `i` (at some time). -/
def Sub.claims (i : Nat) (t : Sub) : Bool := t.claimed == some i

/-- The invariant of the program built from the workers `ws`. -/
structure Inv (ws : List Worker) (s : State) : Prop where
  wk : s.pool.masters.map (fun m => m.worker) = ws
  run01 : s.pool.running = 0 ∨ s.pool.running = 1
  closing : s.closer ≠ .idle → s.pool.running = 1
  sel : s.pool.running = 1 → s.pool.selects = List.range s.pool.masters.length
  pend : s.pool.pending = wrapInt32 (s.subs.countP Sub.outstanding)
  mas : ∀ (i : Nat) (m : taskMaster), s.pool.masters[i]? = some m →
    MBase m ∧ CountOk (stageOf s.pool.running s.closer i) m ∧
      ShapeOk (stageOf s.pool.running s.closer i) m
  own : ∀ (i : Nat) (m : taskMaster) (j : Nat), s.pool.masters[i]? = some m → m.owner = some j →
    ∃ t, s.subs[j]? = some t ∧ t.pc.engaged i
  sub : ∀ (j : Nat) (t : Sub), s.subs[j]? = some t → SubOk ws s j t
  cnt : ∀ (i : Nat) (m : taskMaster), s.pool.masters[i]? = some m →
    m.readySent = s.subs.countP (Sub.claims i) + m.joinRecv
  tmr : ∀ (j : Nat) (t : Sub), s.subs[j]? = some t → TimerOk s.now t

/-! ## What one transition does to one controller -/

/-- The ways a transition from `s` can change controller `i`. -/
inductive MStep (s : State) (i : Nat) (m : taskMaster) : taskMaster → Prop where
  | same : MStep s i m m
  | loop (r : Bool) (m' : taskMaster) : loopStep m r = some m' → MStep s i m m'
  | run : s.pool.running ≠ 1 → s.lockFree = true → MStep s i m m.run
  | closeInput : s.closer = .closeInput i → m.chInput = .opened →
      MStep s i m { m with chInput := .closed }
  | storeOpen : s.closer = .storeOpen i →
      MStep s i m { m with openFlag := 0, closes := m.closes + 1 }
  | joinReady : s.closer = .joinReady i → m.chReady = .opened → m.loop = .sendReady →
      MStep s i m { m with loop := .recvInput, readySent := m.readySent + 1,
                           joinRecv := m.joinRecv + 1 }
  | joinOutput (b : Bool) (r : Data) : s.closer = .joinOutput i b → m.chOutput = .opened →
      m.loop = .sendOutput r → MStep s i m { m with loop := .poll, outputs := m.outputs + 1 }
  | joinTerm : s.closer = .joinTerm i →
      MStep s i m { m with terms := if m.worker.isAdvanced then m.terms + 1 else m.terms
                           joins := m.joins + 1 }
  | claim (j : Nat) (t : Sub) : s.subs[j]? = some t → t.pc = .select → m.chReady = .opened →
      m.loop = .sendReady →
      MStep s i m { m with loop := .recvInput, readySent := m.readySent + 1, owner := some j }
  | send (j : Nat) (t : Sub) : s.subs[j]? = some t → t.pc = .sendInput i → m.chInput = .opened →
      m.loop = .recvInput → MStep s i m { m with loop := .job t.data, inputs := m.inputs + 1 }
  | recv (j : Nat) (t : Sub) (r : Data) : s.subs[j]? = some t → t.pc = .waitOutput i →
      m.chOutput = .opened → m.loop = .sendOutput r →
      MStep s i m { m with loop := .poll, outputs := m.outputs + 1, owner := none }
  | release (j : Nat) (t : Sub) : s.subs[j]? = some t → t.pc = .waitOutput i →
      MStep s i m { m with owner := none }

/-! ## The abandoned controller -/

/-- The `Close` in progress, if any, has not got past the first receive of
`join` for controller `i`. -/
def closerBefore (c : ClosePc) (i : Nat) : Prop :=
  match c with
  | .idle => True
  | .closeInput _ => True
  | .storeOpen _ => True
  | .joinReady k => k ≤ i
  | .joinOutput k _ => k < i
  | .joinTerm k => k < i

/-- Controller `i` holds a job nobody waits for: its loop is inside `Job` or
blocked sending the result, no submission owns it, and its counters stand at
`n` readiness signals, `a` inputs and `b` outputs. -/
structure Stuck (i n a b : Nat) (s : State) : Prop where
  running : s.pool.running = 1
  closer : closerBefore s.closer i
  master : ∃ m, s.pool.masters[i]? = some m ∧ m.loop.busy = true ∧ m.owner = none ∧
    m.readySent = n ∧ m.inputs = a ∧ m.outputs = b

/-! ## Example runs -/

/-- The worker of the tests: it doubles its input. -/
def double : Data → Data := fun x => 2 * x

/-- A pool of one doubling worker whose `Close` has closed and joined its
controller and stands at the end of its second loop. -/
def closingState : State :=
  (exec (State.init (NewSimplePool 1 double))
    [.run, .loop 0 true, .close, .closeStep, .closeStep, .closeStep, .closeStep,
     .loop 0 true, .loop 0 true, .loop 0 true, .closeStep, .closeStep, .closeStep,
     .closeStep]).getD (State.init (NewSimplePool 1 double))

/-- The state after one submission to a running pool of two doubling workers
went through completely. -/
def servedState : State :=
  (exec (State.init (NewSimplePool 2 double))
    [.run, .loop 1 true, .call 21 none, .sub 0, .sub 0, .subSelect 0 1, .sub 0, .loop 1 true,
     .sub 0, .sub 0]).getD (State.init (NewSimplePool 2 double))

/-- The state after three asynchronous submissions to a stopped pool, two of
which have finished. -/
def asyncState : State :=
  (exec (State.init (NewSimplePool 1 double))
    [.callAsync 1 none false, .callAsync 2 (some 3) true, .callAsync 3 none false,
     .sub 0, .sub 0, .sub 0, .sub 0, .sub 1, .sub 1, .sub 1, .sub 1, .sub 1]).getD
    (State.init (NewSimplePool 1 double))

/-- A pool with one advanced worker, running, whose worker is inside `Job`. -/
def advancedState : State :=
  (exec (State.init (NewCustomPool [{ job := double, kind := .advanced }]))
    [.run, .loop 0 false, .loop 0 true, .loop 0 true, .call 4 none, .sub 0, .sub 0,
     .subSelect 0 0, .sub 0]).getD
    (State.init (NewCustomPool [{ job := double, kind := .advanced }]))

/-- A pool of one worker that is never ready, whose `Close` has closed
`chInput` and stored `open = 0` while the loop was polling. -/
def breakState : State :=
  (exec (State.init (NewCustomPool [{ job := double, kind := .basic }]))
    [.run, .loop 0 false, .close, .closeStep, .closeStep, .closeStep]).getD
    (State.init (NewCustomPool [{ job := double, kind := .basic }]))

/-- The controller of `breakState`. -/
def breakMaster : taskMaster :=
  { chReady := .opened, chInput := .closed, chOutput := .opened, openFlag := 0,
    worker := { job := double, kind := .basic }, loop := .chk, leaked := 0,
    owner := none, viaBreak := false, runs := 1, closes := 1, joins := 0, inits := 0,
    terms := 0, readySent := 0, joinRecv := 0, inputs := 0, outputs := 0 }

/-- A running pool of one doubling worker that is still in its poll, with a
`SendWorkWithTimeout(0, 5)` inside `reflect.Select`. -/
def selectState : State :=
  (exec (State.init (NewSimplePool 1 double)) [.run, .call 5 (some 0), .sub 0, .sub 0]).getD
    (State.init (NewSimplePool 1 double))

/-- A running pool of one doubling worker that holds the job of a
`SendWorkWithTimeout(0, 5)` still waiting for the result. -/
def waitingState : State :=
  (exec (State.init (NewSimplePool 1 double))
    [.run, .loop 0 true, .call 5 (some 0), .sub 0, .sub 0, .subSelect 0 0, .sub 0,
     .sub 0]).getD
    (State.init (NewSimplePool 1 double))

/-- The state of `waitingState` after the call gave up. -/
def abandonedState : State :=
  (step waitingState (.subTimeout 0)).getD waitingState

/-- A running pool of two doubling workers, both claimed: the first inside
`Job`, the second about to receive its input. -/
def busyState : State :=
  (exec (State.init (NewSimplePool 2 double))
    [.run, .loop 0 true, .loop 1 true, .call 3 none, .call 4 (some 9), .sub 0, .sub 0,
     .subSelect 0 0, .sub 1, .sub 1, .subSelect 1 1, .sub 0]).getD
    (State.init (NewSimplePool 2 double))

/-! ## Lists, and the proof of the invariant -/

theorem get_set_self {α : Type} {l : List α} {i : Nat} {a b : α} (h : l[i]? = some a) :
    (l.set i b)[i]? = some b := by
  have hi : i < l.length := by
    rcases Nat.lt_or_ge i l.length with h1 | h1
    · exact h1
    · rw [List.getElem?_eq_none h1] at h; cases h
  simp [List.getElem?_set, hi]

theorem get_set_other {α : Type} {l : List α} {i k : Nat} {b : α} (h : i ≠ k) :
    (l.set i b)[k]? = l[k]? := by
  simp [List.getElem?_set, h]

theorem get_set_cases {α : Type} {l : List α} {i k : Nat} {b x : α}
    (h : (l.set i b)[k]? = some x) : (k = i ∧ x = b) ∨ (k ≠ i ∧ l[k]? = some x) := by
  by_cases hik : i = k
  · subst hik
    left
    rw [List.getElem?_set] at h
    simp at h
    exact ⟨rfl, h.2.symm⟩
  · right
    rw [get_set_other hik] at h
    exact ⟨fun e => hik e.symm, h⟩

theorem inv_init (ws : List Worker) : Inv ws (State.init (NewCustomPool ws)) := by
  refine ⟨?_, ?_, ?_, ?_, ?_, ?_, ?_, ?_, ?_, ?_⟩
  · simp [State.init, NewCustomPool, Function.comp_def]
  · left; rfl
  · intro h; exact absurd rfl h
  · intro h; simp [State.init, NewCustomPool] at h
  · simp [State.init, NewCustomPool, wrapInt32]
  · intro i m h
    simp only [State.init, NewCustomPool, List.getElem?_map] at h
    cases hw : ws[i]? with
    | none => simp [hw] at h
    | some w =>
      simp [hw] at h
      subst h
      refine ⟨⟨?_, rfl, ?_, ?_, ?_, ?_⟩, ?_⟩
      · simp [ChansOk]
      · simp
      · simp
      · simp [LoopPc.busy]
      · simp
      · simp [stageOf, CountOk, ShapeOk, LoopPc.alive, State.init, NewCustomPool]
  · intro i m j h ho
    simp only [State.init, NewCustomPool, List.getElem?_map] at h
    cases hw : ws[i]? with
    | none => simp [hw] at h
    | some w =>
      simp [hw] at h
      subst h
      simp at ho
  · intro j t h
    simp [State.init] at h
  · intro i m h
    simp only [State.init, NewCustomPool, List.getElem?_map] at h
    cases hw : ws[i]? with
    | none => simp [hw] at h
    | some w =>
      simp [hw] at h
      subst h
      simp [State.init]
  · intro j t h
    simp [State.init] at h

theorem subOk_free {ws : List Worker} {s : State} {j : Nat} {t : Sub} (s' : State)
    (h : SubOk ws s j t) (hf : t.pc.holdsRLock = false) : SubOk ws s' j t := by
  unfold SubOk at h ⊢
  cases hp : t.pc <;> simp [hp, SubPc.holdsRLock] at h hf ⊢ <;> exact h

theorem subOk_idle {ws : List Worker} {s : State} {j : Nat} {t : Sub}
    (h : SubOk ws s j t) (hf : t.pc.holdsRLock = true) : s.closer = .idle := by
  unfold SubOk at h
  cases hp : t.pc <;> simp [hp, SubPc.holdsRLock] at h hf <;> exact h.1

theorem subOk_setMaster {ws : List Worker} {s : State} {j i : Nat} {t : Sub} {m m' : taskMaster}
    (h : SubOk ws s j t) (hi : s.pool.masters[i]? = some m) (ho : m.owner ≠ some j) :
    SubOk ws (s.setMaster i m') j t := by
  unfold SubOk at h ⊢
  cases hp : t.pc <;> simp only [hp] at h ⊢ <;> try exact h
  all_goals
    rename_i k
    obtain ⟨h1, h2, h3, h4, mk, h5, h6, h7⟩ := h
    refine ⟨h1, h2, h3, h4, mk, ?_, h6, h7⟩
    have : i ≠ k := by
      rintro rfl
      rw [hi] at h5; cases h5; exact ho h6
    simp only [State.setMaster]
    rw [get_set_other this]; exact h5

theorem inv_tick {ws : List Worker} {s : State} (h : Inv ws s) :
    Inv ws { s with now := s.now + 1 } := by
  refine ⟨h.wk, h.run01, h.closing, h.sel, h.pend, h.mas, h.own, ?_, h.cnt, ?_⟩
  · intro j t hj
    have := h.sub j t hj
    unfold SubOk at this ⊢
    cases hp : t.pc <;> simp only [hp] at this ⊢ <;> first
      | exact this
      | (obtain ⟨h1, h2, h3, h4⟩ := this; exact ⟨h1, h2, by omega, h4⟩)
  · intro j t hj
    have := h.tmr j t hj
    unfold TimerOk at this ⊢
    cases hp : t.pc <;> simp only [hp] at this ⊢ <;> first
      | exact this
      | (intro d hd
         obtain ⟨a, h1, h2, h3⟩ := this d hd
         exact ⟨a, h1, by omega, h3⟩)

theorem get_append_one {α : Type} {l : List α} {j : Nat} {a x : α}
    (h : (l ++ [a])[j]? = some x) : l[j]? = some x ∨ (j = l.length ∧ x = a) := by
  rcases Nat.lt_or_ge j l.length with h1 | h1
  · rw [List.getElem?_append_left h1] at h; exact Or.inl h
  · right
    rw [List.getElem?_append_right h1] at h
    rcases Nat.eq_zero_or_pos (j - l.length) with h2 | h2
    · rw [h2] at h
      simp at h
      exact ⟨by omega, h.symm⟩
    · have : [a][j - l.length]? = none := by
        apply List.getElem?_eq_none; simp; omega
      rw [this] at h; cases h

theorem get_append_old {α : Type} {l : List α} {j : Nat} {a x : α}
    (h : l[j]? = some x) : (l ++ [a])[j]? = some x := by
  have hj : j < l.length := by
    rcases Nat.lt_or_ge j l.length with h1 | h1
    · exact h1
    · rw [List.getElem?_eq_none h1] at h; cases h
  rw [List.getElem?_append_left hj]; exact h

theorem wrapInt32_wrap (z : Int) (k : Int) :
    wrapInt32 (wrapInt32 z + k) = wrapInt32 (z + k) := by
  unfold wrapInt32
  omega

theorem inv_call {ws : List Worker} {s : State} (h : Inv ws s) (x : Data) (tmo : Option Int) :
    Inv ws { s with subs := s.subs ++ [Sub.new x tmo none] } := by
  refine ⟨h.wk, h.run01, h.closing, h.sel, ?_, h.mas, ?_, ?_, ?_, ?_⟩
  · have := h.pend
    simp [List.countP_append, Sub.outstanding, SubPc.isFinished, Sub.new, this]
  · intro i m j hi ho
    obtain ⟨t, ht, he⟩ := h.own i m j hi ho
    exact ⟨t, get_append_old ht, he⟩
  · intro j t hj
    rcases get_append_one hj with h1 | ⟨_, rfl⟩
    · exact h.sub j t h1
    · simp [SubOk, Sub.new]
  · intro i m hi
    have := h.cnt i m hi
    simp [List.countP_append, Sub.claims, Sub.new, this]
  · intro j t hj
    rcases get_append_one hj with h1 | ⟨_, rfl⟩
    · exact h.tmr j t h1
    · simp [TimerOk, Sub.new]

theorem inv_callAsync {ws : List Worker} {s : State} (h : Inv ws s) (x : Data) (tmo : Option Int)
    (b : Bool) :
    Inv ws { s with pool := { s.pool with pending := wrapInt32 (s.pool.pending + 1) }
                    subs := s.subs ++ [Sub.new x tmo (some b)] } := by
  refine ⟨h.wk, h.run01, h.closing, h.sel, ?_, h.mas, ?_, ?_, ?_, ?_⟩
  · have := h.pend
    simp only [this, wrapInt32_wrap]
    simp [List.countP_append, Sub.outstanding, SubPc.isFinished, Sub.new]
  · intro i m j hi ho
    obtain ⟨t, ht, he⟩ := h.own i m j hi ho
    exact ⟨t, get_append_old ht, he⟩
  · intro j t hj
    rcases get_append_one hj with h1 | ⟨_, rfl⟩
    · exact h.sub j t h1
    · simp [SubOk, Sub.new]
  · intro i m hi
    have := h.cnt i m hi
    simp [List.countP_append, Sub.claims, Sub.new, this]
  · intro j t hj
    rcases get_append_one hj with h1 | ⟨_, rfl⟩
    · exact h.tmr j t h1
    · simp [TimerOk, Sub.new]

theorem lockFree_iff {s : State} (h : s.lockFree = true) :
    s.closer = .idle ∧ ∀ (j : Nat) (t : Sub), s.subs[j]? = some t → t.pc.holdsRLock = false := by
  simp only [State.lockFree, Bool.and_eq_true, beq_iff_eq, List.all_eq_true] at h
  refine ⟨h.1, ?_⟩
  intro j t hj
  have := h.2 t (List.getElem?_mem hj)
  simpa using this

theorem engaged_holds {pc : SubPc} {i : Nat} (h : pc.engaged i) : pc.holdsRLock = true := by
  rcases h with h | h | h <;> simp [h, SubPc.holdsRLock]

theorem isRunning_iff (p : TaskPool) : p.isRunning = true ↔ p.running = 1 := by
  simp [TaskPool.isRunning]

theorem inv_run {ws : List Worker} {s : State} (h : Inv ws s) (hl : s.lockFree = true) :
    Inv ws { s with pool := s.pool.Run.1 } := by
  obtain ⟨hc, hfree⟩ := lockFree_iff hl
  by_cases hr : s.pool.running = 1
  · have : s.pool.Run.1 = s.pool := by
      simp [TaskPool.Run, TaskPool.isRunning, hr]
    rw [this]; exact h
  · have hrun : s.pool.Run.1 = TaskPool.setRunning
        { s.pool with masters := s.pool.masters.map taskMaster.run, selects := List.range s.pool.masters.length }
        true := by
      simp [TaskPool.Run, TaskPool.isRunning, hr]
    rw [hrun]
    refine ⟨?_, ?_, ?_, ?_, ?_, ?_, ?_, ?_, ?_, h.tmr⟩
    · have := h.wk
      simp only [TaskPool.setRunning, List.map_map]
      rw [← this]
      apply List.map_congr_left
      intro m _
      simp [taskMaster.run]
    · right; simp [TaskPool.setRunning]
    · intro _; simp [TaskPool.setRunning]
    · intro _; simp [TaskPool.setRunning]
    · simpa [TaskPool.setRunning] using h.pend
    · intro i m hi
      simp only [TaskPool.setRunning, List.getElem?_map] at hi
      cases h0 : s.pool.masters[i]? with
      | none => simp [h0] at hi
      | some m0 =>
        simp only [h0, Option.map_some', Option.some.injEq] at hi
        subst hi
        obtain ⟨hb, hcn, hs⟩ := h.mas i m0 h0
        have hst : stageOf s.pool.running s.closer i = .stopped := by
          simp [stageOf, hr]
        rw [hst] at hs hcn
        simp only [ShapeOk] at hs
        simp only [CountOk] at hcn
        obtain ⟨ha, hown⟩ := hs
        refine ⟨⟨?_, ?_, ?_, ?_, ?_, ?_⟩, ?_, ?_⟩
        · simp [ChansOk, taskMaster.run]
        · simp [taskMaster.run, ha, hb.leaked]
        · have := hb.inits
          simp only [taskMaster.run]
          split <;> simp_all
        · have := hb.terms
          simpa [taskMaster.run] using this
        · have := hb.flow
          have hnb : m0.loop.busy = false := by
            cases hl0 : m0.loop <;> simp_all [LoopPc.busy, LoopPc.alive]
          rw [hnb] at this
          simpa [taskMaster.run, LoopPc.busy] using this
        · simp [taskMaster.run, hown]
        · simp only [TaskPool.setRunning, hc, stageOf, CountOk, taskMaster.run]
          simp
          omega
        · simp [TaskPool.setRunning, hc, stageOf, ShapeOk, taskMaster.run]
    · intro i m j hi ho
      simp only [TaskPool.setRunning, List.getElem?_map] at hi
      cases h0 : s.pool.masters[i]? with
      | none => simp [h0] at hi
      | some m0 =>
        simp only [h0, Option.map_some', Option.some.injEq] at hi
        subst hi
        exact h.own i m0 j h0 (by simpa [taskMaster.run] using ho)
    · intro j t hj
      exact subOk_free _ (h.sub j t hj) (hfree j t hj)
    · intro i m hi
      simp only [TaskPool.setRunning, List.getElem?_map] at hi
      cases h0 : s.pool.masters[i]? with
      | none => simp [h0] at hi
      | some m0 =>
        simp only [h0, Option.map_some', Option.some.injEq] at hi
        subst hi
        exact h.cnt i m0 h0

theorem inv_close {ws : List Worker} {s : State} (h : Inv ws s) (hl : s.lockFree = true) :
    Inv ws (closeEnter s).1 := by
  obtain ⟨hc, hfree⟩ := lockFree_iff hl
  by_cases hr : s.pool.running = 1
  · have : (closeEnter s).1 = s.setCloser (.closeInput 0) := by
      simp [closeEnter, TaskPool.isRunning, hr]
    rw [this]
    refine ⟨h.wk, h.run01, fun _ => hr, h.sel, h.pend, ?_, h.own, ?_, h.cnt, h.tmr⟩
    · intro i m hi
      obtain ⟨hb, hcn, hs⟩ := h.mas i m hi
      simp only [State.setCloser] at hi ⊢
      rw [hc] at hs hcn
      simp only [stageOf, hr, if_true, ShapeOk, CountOk, Nat.not_lt_zero, if_false] at hs hcn ⊢
      refine ⟨hb, hcn, hs.1, hs.2.1, hs.2.2, ?_⟩
      cases ho : m.owner with
      | none => rfl
      | some j =>
        obtain ⟨t, ht, he⟩ := h.own i m j hi ho
        have := hfree j t ht
        rw [engaged_holds he] at this
        cases this
    · intro j t hj
      exact subOk_free _ (h.sub j t hj) (hfree j t hj)
  · have : (closeEnter s).1 = s := by
      simp [closeEnter, TaskPool.isRunning, hr]
    rw [this]; exact h

theorem map_worker_set {l : List taskMaster} {i : Nat} {m m' : taskMaster}
    (hi : l[i]? = some m) (hw : m'.worker = m.worker) :
    (l.set i m').map (fun m => m.worker) = l.map (fun m => m.worker) := by
  apply List.ext_getElem?
  intro k
  simp only [List.getElem?_map]
  by_cases hik : i = k
  · subst hik
    rw [get_set_self hi, hi]; simp [hw]
  · rw [get_set_other hik]

theorem owner_none_of_not_serving {m : taskMaster} (hb : MBase m) (h : m.loop.serving = false) :
    m.owner = none := by
  cases ho : m.owner with
  | none => rfl
  | some j =>
    have := hb.owner (by simp [ho])
    rw [h] at this; cases this

/-- The counters of a stage only read `runs`, `closes` and `joins`. -/
theorem count_congr {st : Stage} {m m2 : taskMaster} (hc : CountOk st m)
    (h1 : m2.runs = m.runs) (h2 : m2.closes = m.closes) (h3 : m2.joins = m.joins) :
    CountOk st m2 := by
  cases st <;> simp only [CountOk, h1, h2, h3] at hc ⊢ <;> exact hc

/-- The shape of a stage survives a statement of an alive loop that leaves
`open`, `chInput` and the owner alone. -/
theorem shape_loop {st : Stage} {m m2 : taskMaster} (hs : ShapeOk st m)
    (h1 : m2.openFlag = m.openFlag) (h2 : m2.chInput = m.chInput) (h3 : m2.owner = m.owner)
    (ha : m.loop.alive = true)
    (hv : m2.loop = .sendReady → m2.viaBreak = false ∨ m.openFlag = 0)
    (hr : m.chReady = .closed → m2.chReady = .closed) : ShapeOk st m2 := by
  cases st <;> simp only [ShapeOk, h1, h2, h3] at hs ⊢
  · rw [ha] at hs; exact absurd hs.1 (by simp)
  · refine ⟨hs.1, hs.2.1, fun hl => ?_⟩
    rcases hv hl with h | h
    · exact h
    · rw [hs.1] at h; cases h
  · refine ⟨hs.1, hs.2.1, fun hl => ?_, hs.2.2.2⟩
    rcases hv hl with h | h
    · exact h
    · rw [hs.1] at h; cases h
  · exact hs
  · exact hs
  · exact ⟨hs.1, hs.2.1, hs.2.2.1, hr hs.2.2.2⟩
  · rw [hs.2.2.2] at ha; cases ha
  · rw [hs.2.2.2] at ha; cases ha

/-- The stage-independent facts survive a statement that leaves the counters
and the worker alone. -/
theorem mbase_congr {m m2 : taskMaster} (hb : MBase m) (hc : ChansOk m2)
    (hl : m2.leaked = m.leaked) (hw : m2.worker = m.worker) (hr : m2.runs = m.runs)
    (hj : m2.joins = m.joins) (hi : m2.inits = m.inits) (ht : m2.terms = m.terms)
    (hf : m2.inputs = m2.outputs + if m2.loop.busy then 1 else 0)
    (ho : m2.owner ≠ none → m2.loop.serving = true) : MBase m2 :=
  ⟨hc, by rw [hl]; exact hb.leaked, by rw [hi, hw, hr]; exact hb.inits,
   by rw [ht, hw, hj]; exact hb.terms, hf, ho⟩

/-- What a solo step of the loop keeps and changes. -/
theorem loopStep_spec {m m' : taskMaster} {r : Bool} {st : Stage}
    (hb : MBase m) (hc : CountOk st m) (hs : ShapeOk st m) (h : loopStep m r = some m') :
    MBase m' ∧ CountOk st m' ∧ ShapeOk st m' ∧ m'.worker = m.worker ∧ m'.owner = m.owner ∧
    (m.loop = .recvInput → m.chInput = .closed ∧ m.owner = none) ∧
    (∀ x, m.loop = .job x → m'.loop = .sendOutput (m.worker.job x)) ∧
    (∀ x, m.loop ≠ .sendOutput x) := by
  have hown := owner_none_of_not_serving hb
  have hch := hb.chans
  have hfl := hb.flow
  unfold loopStep at h
  unfold ChansOk at hch
  cases hl : m.loop <;> simp only [hl] at h hch <;> try cases h
  · -- poll
    have ho : m.owner = none := hown (by simp [hl, LoopPc.serving])
    split at h <;> try cases h
    split at h <;> cases h
    · refine ⟨mbase_congr hb ?_ rfl rfl rfl rfl rfl rfl ?_ ?_, count_congr hc rfl rfl rfl,
        shape_loop hs rfl rfl rfl ?_ ?_ ?_, rfl, rfl, ?_, ?_, ?_⟩
      · simpa [ChansOk] using hch
      · simpa [hl, LoopPc.busy] using hfl
      · simp [ho]
      · simp [hl, LoopPc.alive]
      · simp
      · exact fun h => h
      · simp [hl]
      · simp [hl]
      · simp [hl]
    · refine ⟨mbase_congr hb ?_ rfl rfl rfl rfl rfl rfl ?_ ?_, count_congr hc rfl rfl rfl,
        shape_loop hs rfl rfl rfl ?_ ?_ ?_, rfl, rfl, ?_, ?_, ?_⟩
      · simpa [ChansOk] using hch
      · simpa [hl, LoopPc.busy] using hfl
      · simp [ho]
      · simp [hl, LoopPc.alive]
      · simp
      · exact fun h => h
      · simp [hl]
      · simp [hl]
      · simp [hl]
  · -- chk
    have ho : m.owner = none := hown (by simp [hl, LoopPc.serving])
    split at h <;> cases h
    · rename_i hof
      refine ⟨mbase_congr hb ?_ rfl rfl rfl rfl rfl rfl ?_ ?_, count_congr hc rfl rfl rfl,
        shape_loop hs rfl rfl rfl ?_ ?_ ?_, rfl, rfl, ?_, ?_, ?_⟩
      · simpa [ChansOk] using hch
      · simpa [hl, LoopPc.busy] using hfl
      · simp [ho]
      · simp [hl, LoopPc.alive]
      · intro _; exact Or.inr hof
      · exact fun h => h
      · simp [hl]
      · simp [hl]
      · simp [hl]
    · refine ⟨mbase_congr hb ?_ rfl rfl rfl rfl rfl rfl ?_ ?_, count_congr hc rfl rfl rfl,
        shape_loop hs rfl rfl rfl ?_ ?_ ?_, rfl, rfl, ?_, ?_, ?_⟩
      · simpa [ChansOk] using hch
      · simpa [hl, LoopPc.busy] using hfl
      · simp [ho]
      · simp [hl, LoopPc.alive]
      · simp
      · exact fun h => h
      · simp [hl]
      · simp [hl]
      · simp [hl]
  · -- recvInput
    split at h <;> cases h
    rename_i hci
    have ho : m.owner = none := by
      cases st <;> simp only [ShapeOk] at hs
      · simp [hl, LoopPc.alive] at hs
      · rw [hci] at hs; exact absurd hs.2.1 (by simp)
      · exact hs.2.2.2
      · exact hs.2.2
      · exact hs.2.2
      · exact hs.2.2.1
      · exact hs.2.2.1
      · exact hs.2.2.1
    refine ⟨mbase_congr hb ?_ rfl rfl rfl rfl rfl rfl ?_ ?_, count_congr hc rfl rfl rfl,
        shape_loop hs rfl rfl rfl ?_ ?_ ?_, rfl, rfl, ?_, ?_, ?_⟩
    · simp [ChansOk, hch, hci]
    · simpa [hl, LoopPc.busy] using hfl
    · simp [ho]
    · simp [hl, LoopPc.alive]
    · simp
    · exact fun h => h
    · exact fun _ => ⟨hci, ho⟩
    · simp [hl]
    · simp [hl]
  · -- job
    refine ⟨mbase_congr hb ?_ rfl rfl rfl rfl rfl rfl ?_ ?_, count_congr hc rfl rfl rfl,
        shape_loop hs rfl rfl rfl ?_ ?_ ?_, rfl, rfl, ?_, ?_, ?_⟩
    · simpa [ChansOk] using hch
    · simpa [hl, LoopPc.busy] using hfl
    · simp [LoopPc.serving]
    · simp [hl, LoopPc.alive]
    · simp
    · exact fun h => h
    · simp [hl]
    · simp [hl]
    · simp [hl]
  · -- closeReady
    have ho : m.owner = none := hown (by simp [hl, LoopPc.serving])
    split at h <;> cases h
    refine ⟨mbase_congr hb ?_ rfl rfl rfl rfl rfl rfl ?_ ?_, count_congr hc rfl rfl rfl,
        shape_loop hs rfl rfl rfl ?_ ?_ ?_, rfl, rfl, ?_, ?_, ?_⟩
    · simp [ChansOk, hch]
    · simpa [hl, LoopPc.busy] using hfl
    · simp [ho]
    · simp [hl, LoopPc.alive]
    · simp
    · simp
    · simp [hl]
    · simp [hl]
    · simp [hl]
  · -- closeOutput
    have ho : m.owner = none := hown (by simp [hl, LoopPc.serving])
    split at h <;> cases h
    refine ⟨mbase_congr hb ?_ rfl rfl rfl rfl rfl rfl ?_ ?_, count_congr hc rfl rfl rfl,
        shape_loop hs rfl rfl rfl ?_ ?_ ?_, rfl, rfl, ?_, ?_, ?_⟩
    · simp [ChansOk, hch]
    · simpa [hl, LoopPc.busy] using hfl
    · simp [ho]
    · simp [hl, LoopPc.alive]
    · simp
    · exact fun h => h
    · simp [hl]
    · simp [hl]
    · simp [hl]

/-- A solo statement of the loop changes only the loop position, the two
channels it closes, and the `viaBreak` mark. -/
theorem loopStep_frame {m m' : taskMaster} {r : Bool} (h : loopStep m r = some m') :
    m'.worker = m.worker ∧ m'.owner = m.owner ∧ m'.openFlag = m.openFlag ∧
    m'.chInput = m.chInput ∧ m'.runs = m.runs ∧ m'.closes = m.closes ∧ m'.joins = m.joins ∧
    m'.inits = m.inits ∧ m'.terms = m.terms ∧ m'.readySent = m.readySent ∧
    m'.joinRecv = m.joinRecv ∧ m'.inputs = m.inputs ∧ m'.outputs = m.outputs ∧
    m'.leaked = m.leaked := by
  unfold loopStep at h
  cases hl : m.loop <;> simp only [hl] at h <;> try cases h
  · split at h
    · split at h <;> cases h <;> simp
    · cases h
  · split at h <;> cases h <;> simp
  · split at h
    · cases h; simp
    · cases h
  · simp
  · split at h
    · cases h; simp
    · cases h
  · split at h
    · cases h; simp
    · cases h

/-- Replacing controller `i` by one at the same stage keeps the per-controller
part of the invariant. -/
theorem mas_setMaster {ws : List Worker} {s : State} {i : Nat} {m' : taskMaster}
    (h : Inv ws s) (hb : MBase m')
    (hc : CountOk (stageOf s.pool.running s.closer i) m')
    (hs : ShapeOk (stageOf s.pool.running s.closer i) m') :
    ∀ (k : Nat) (mk : taskMaster), (s.pool.masters.set i m')[k]? = some mk →
      MBase mk ∧ CountOk (stageOf s.pool.running s.closer k) mk ∧
        ShapeOk (stageOf s.pool.running s.closer k) mk := by
  intro k mk hk
  rcases get_set_cases hk with ⟨rfl, rfl⟩ | ⟨_, hk'⟩
  · exact ⟨hb, hc, hs⟩
  · exact h.mas k mk hk'

theorem inv_loop {ws : List Worker} {s : State} {i : Nat} {r : Bool} {m m' : taskMaster}
    (h : Inv ws s) (hi : s.pool.masters[i]? = some m) (hstep : loopStep m r = some m') :
    Inv ws (s.setMaster i m') := by
  obtain ⟨hb, hc, hs⟩ := h.mas i m hi
  obtain ⟨hb', hc', hs', hw, ho, hrecv, hjob, hout⟩ := loopStep_spec hb hc hs hstep
  have hfr := loopStep_frame hstep
  refine ⟨?_, h.run01, h.closing, ?_, h.pend, ?_, ?_, ?_, ?_, h.tmr⟩
  · simp only [State.setMaster]
    rw [map_worker_set hi hw]; exact h.wk
  · intro hr
    simp only [State.setMaster, List.length_set]
    exact h.sel hr
  · exact mas_setMaster h hb' hc' hs'
  · intro k mk j hk hok
    simp only [State.setMaster] at hk ⊢
    rcases get_set_cases hk with ⟨rfl, rfl⟩ | ⟨_, hk'⟩
    · exact h.own k m j hi (ho ▸ hok)
    · exact h.own k mk j hk' hok
  · intro j t hj
    have hsub := h.sub j t hj
    by_cases hoj : m.owner = some j
    · obtain ⟨t0, ht0, he⟩ := h.own i m j hi hoj
      simp only [State.setMaster] at hj
      rw [hj] at ht0; cases ht0
      unfold SubOk at hsub ⊢
      rcases he with he | he | he
      · simp only [he] at hsub ⊢
        obtain ⟨h1, h2, h3, h4, mk, h5, h6, h7⟩ := hsub
        rw [hi] at h5; cases h5
        have := (hrecv h7).2
        rw [hoj] at this; cases this
      · simp only [he] at hsub ⊢
        obtain ⟨h1, h2, h3, h4, mk, h5, h6, h7⟩ := hsub
        rw [hi] at h5; cases h5
        refine ⟨h1, h2, h3, h4, m', get_set_self hi, ho ▸ h6, ?_⟩
        rcases h7 with h7 | h7
        · right; rw [hw]; exact hjob _ h7
        · exact absurd h7 (hout _)
      · simp only [he] at hsub ⊢
        obtain ⟨h1, h2, h3, h4, mk, h5, h6, h7⟩ := hsub
        rw [hi] at h5; cases h5
        refine ⟨h1, h2, h3, h4, m', get_set_self hi, ho ▸ h6, ?_⟩
        rcases h7 with h7 | h7
        · right; rw [hw]; exact hjob _ h7
        · exact absurd h7 (hout _)
    · exact subOk_setMaster hsub hi hoj
  · intro k mk hk
    simp only [State.setMaster] at hk ⊢
    rcases get_set_cases hk with ⟨rfl, rfl⟩ | ⟨_, hk'⟩
    · rw [hfr.2.2.2.2.2.2.2.2.2.1, hfr.2.2.2.2.2.2.2.2.2.2.1]
      exact h.cnt k m hi
    · exact h.cnt k mk hk'

theorem subs_free {ws : List Worker} {s : State} (h : Inv ws s) (hne : s.closer ≠ .idle) :
    ∀ (j : Nat) (t : Sub), s.subs[j]? = some t → t.pc.holdsRLock = false := by
  intro j t hj
  cases hh : t.pc.holdsRLock with
  | false => rfl
  | true => exact absurd (subOk_idle (h.sub j t hj) hh) hne

theorem stage_closing {running : Nat} {c : ClosePc} {i : Nat} (hc : c ≠ .idle) :
    stageOf running c i ≠ .live := by
  unfold stageOf
  cases c <;> simp at hc ⊢ <;> split_ifs <;> simp

theorem shape_owner {st : Stage} {m : taskMaster} (hs : ShapeOk st m) (hne : st ≠ .live) :
    m.owner = none := by
  cases st <;> simp only [ShapeOk] at hs
  · exact hs.2
  · exact absurd rfl hne
  · exact hs.2.2.2
  · exact hs.2.2
  · exact hs.2.2
  · exact hs.2.2.1
  · exact hs.2.2.1
  · exact hs.2.2.1

/-- A statement of `Close` that leaves it inside `Close`. -/
theorem inv_closer {ws : List Worker} {s : State} (h : Inv ws s) (hne : s.closer ≠ .idle)
    (c' : ClosePc) (hc' : c' ≠ .idle) (ms' : List taskMaster)
    (hwk : ms'.map (fun m => m.worker) = ws) (hlen : ms'.length = s.pool.masters.length)
    (hmas : ∀ (i : Nat) (m' : taskMaster), ms'[i]? = some m' →
      MBase m' ∧ CountOk (stageOf 1 c' i) m' ∧ ShapeOk (stageOf 1 c' i) m')
    (hcnt : ∀ (i : Nat) (m' : taskMaster), ms'[i]? = some m' →
      m'.readySent = s.subs.countP (Sub.claims i) + m'.joinRecv) :
    Inv ws { s with pool := { s.pool with masters := ms' }, closer := c' } := by
  have hr := h.closing hne
  refine ⟨hwk, h.run01, fun _ => hr, ?_, h.pend, ?_, ?_, ?_, hcnt, h.tmr⟩
  · intro _
    simp only [hlen]
    exact h.sel hr
  · intro i m' hi
    simp only [hr]
    exact hmas i m' hi
  · intro i m' j hi ho
    have := shape_owner (hmas i m' hi).2.2 (stage_closing hc')
    rw [this] at ho; cases ho
  · intro j t hj
    exact subOk_free _ (h.sub j t hj) (subs_free h hne j t hj)

theorem set_self_eq {α : Type} {l : List α} {i : Nat} {a : α} (h : l[i]? = some a) :
    l.set i a = l := by
  apply List.ext_getElem?
  intro k
  by_cases hik : i = k
  · subst hik; rw [get_set_self h, h]
  · rw [get_set_other hik]

theorem lt_length_of_get {α : Type} {l : List α} {i : Nat} {a : α} (h : l[i]? = some a) :
    i < l.length := by
  rcases Nat.lt_or_ge i l.length with h1 | h1
  · exact h1
  · rw [List.getElem?_eq_none h1] at h; cases h

/-- A statement of `Close` on controller `k` that keeps every other controller
at its stage. -/
theorem inv_closer_at {ws : List Worker} {s : State} (h : Inv ws s) (hne : s.closer ≠ .idle)
    (c' : ClosePc) (hc' : c' ≠ .idle) {k : Nat} {m m' : taskMaster}
    (hk : s.pool.masters[k]? = some m) (hw : m'.worker = m.worker)
    (hst : ∀ i, i ≠ k → stageOf 1 c' i = stageOf 1 s.closer i)
    (hb : MBase m') (hc : CountOk (stageOf 1 c' k) m') (hs : ShapeOk (stageOf 1 c' k) m')
    (hrs : m'.readySent + m.joinRecv = m.readySent + m'.joinRecv) :
    Inv ws ((s.setMaster k m').setCloser c') := by
  have hr := h.closing hne
  apply inv_closer h hne c' hc' (s.pool.masters.set k m')
  · rw [map_worker_set hk hw]; exact h.wk
  · simp
  · intro i mi hi
    rcases get_set_cases hi with ⟨rfl, rfl⟩ | ⟨hik, hi'⟩
    · exact ⟨hb, hc, hs⟩
    · have := h.mas i mi hi'
      rw [hr] at this
      rw [hst i hik]; exact this
  · intro i mi hi
    rcases get_set_cases hi with ⟨rfl, rfl⟩ | ⟨hik, hi'⟩
    · have := h.cnt i m hk
      omega
    · exact h.cnt i mi hi'

theorem chans_input_opened {m : taskMaster} (hb : ChansOk m) (hi : m.chInput = .opened) :
    m.loop.alive = true ∧ m.loop ≠ .closeReady ∧ m.loop ≠ .closeOutput ∧ m.chReady = .opened ∧
      m.chOutput = .opened := by
  unfold ChansOk at hb
  cases hl : m.loop <;> simp only [hl] at hb <;> simp_all [LoopPc.alive]

theorem chans_both_closed {m : taskMaster} (hb : ChansOk m) (hr : m.chReady = .closed)
    (ho : m.chOutput = .closed) : m.loop = .exited := by
  unfold ChansOk at hb
  cases hl : m.loop <;> simp only [hl] at hb <;> simp_all

theorem inv_closeStep {ws : List Worker} {s s' : State} (h : Inv ws s)
    (hstep : closeStep s = some s') : Inv ws s' := by
  unfold closeStep at hstep
  cases hcl : s.closer with
  | idle => simp [hcl] at hstep
  | closeInput k =>
    have hne : s.closer ≠ .idle := by simp [hcl]
    have hr := h.closing hne
    simp only [hcl] at hstep
    cases hk : s.pool.masters[k]? with
    | none =>
      simp only [hk, Option.some.injEq] at hstep
      subst hstep
      refine inv_closer h hne (.joinReady 0) (by simp) s.pool.masters h.wk rfl ?_ h.cnt
      intro i m hi
      have := h.mas i m hi
      rw [hr, hcl] at this
      have hlt := lt_length_of_get hi
      have hge : s.pool.masters.length ≤ k := by
        rcases Nat.lt_or_ge k s.pool.masters.length with h1 | h1
        · rw [List.getElem?_eq_getElem h1] at hk; cases hk
        · exact h1
      have hik : i < k := by omega
      simpa [stageOf, hik] using this
    | some m =>
      simp only [hk] at hstep
      cases hci : m.chInput <;> simp only [hci, Option.some.injEq] at hstep <;> try cases hstep
      obtain ⟨hb, hc, hs⟩ := h.mas k m hk
      rw [hr, hcl] at hc hs
      simp only [stageOf, if_true, Nat.lt_irrefl, if_false] at hc hs
      obtain ⟨ha, hn1, hn2, hcr, hco⟩ := chans_input_opened hb.chans hci
      refine inv_closer_at h hne (.storeOpen k) (by simp) hk rfl ?_ ?_ ?_ ?_ rfl
      · intro i hik
        rw [hcl]; simp [stageOf, hik]
      · refine mbase_congr hb ?_ rfl rfl rfl rfl rfl rfl hb.flow hb.owner
        unfold ChansOk
        cases hl : m.loop <;> simp_all [LoopPc.alive]
      · simpa [stageOf, CountOk] using hc
      · simp only [stageOf, if_true, Nat.lt_irrefl, if_false, ShapeOk] at hs ⊢
        exact ⟨hs.1, trivial, hs.2.2.2⟩
  | storeOpen k =>
    have hne : s.closer ≠ .idle := by simp [hcl]
    have hr := h.closing hne
    simp only [hcl] at hstep
    cases hk : s.pool.masters[k]? with
    | none => simp [hk] at hstep
    | some m =>
      simp only [hk, Option.some.injEq] at hstep
      subst hstep
      obtain ⟨hb, hc, hs⟩ := h.mas k m hk
      rw [hr, hcl] at hc hs
      simp only [stageOf, if_true, Nat.lt_irrefl, if_false] at hc hs
      refine inv_closer_at h hne (.closeInput (k + 1)) (by simp) hk rfl ?_ ?_ ?_ ?_ rfl
      · intro i hik
        rw [hcl]; simp only [stageOf, if_true, hik, if_false]
        by_cases h1 : i < k
        · have : i < k + 1 := by omega
          simp [h1, this]
        · have : ¬ i < k + 1 := by omega
          simp [h1, this]
      · exact mbase_congr hb hb.chans rfl rfl rfl rfl rfl rfl hb.flow hb.owner
      · simp only [stageOf, if_true, Nat.lt_succ_self, CountOk] at hc ⊢
        omega
      · simp only [stageOf, if_true, Nat.lt_succ_self, ShapeOk] at hs ⊢
        exact ⟨trivial, hs.2.1, hs.2.2⟩
  | joinReady k =>
    have hne : s.closer ≠ .idle := by simp [hcl]
    have hr := h.closing hne
    simp only [hcl] at hstep
    cases hk : s.pool.masters[k]? with
    | none =>
      simp only [hk, Option.some.injEq] at hstep
      subst hstep
      have hge : s.pool.masters.length ≤ k := by
        rcases Nat.lt_or_ge k s.pool.masters.length with h1 | h1
        · rw [List.getElem?_eq_getElem h1] at hk; cases hk
        · exact h1
      have hj : ∀ (i : Nat) (m : taskMaster), s.pool.masters[i]? = some m →
          MBase m ∧ CountOk .joined m ∧ ShapeOk .joined m := by
        intro i m hi
        have := h.mas i m hi
        rw [hr, hcl] at this
        have hlt := lt_length_of_get hi
        have hik : i < k := by omega
        simpa [stageOf, hik] using this
      refine ⟨h.wk, Or.inl rfl, fun hx => absurd rfl hx, ?_, h.pend, ?_, ?_, ?_, h.cnt, h.tmr⟩
      · intro hx; simp [closeExit, TaskPool.setRunning] at hx
      · intro i m hi
        obtain ⟨hb, hc, hs⟩ := hj i m hi
        simp only [closeExit, TaskPool.setRunning, stageOf]
        simp only [CountOk, ShapeOk] at hc hs ⊢
        refine ⟨hb, by simpa using hc, ?_⟩
        simp [hs.2.2.2, hs.2.2.1, LoopPc.alive]
      · intro i m j hi ho
        have := (hj i m hi).2.2
        simp only [ShapeOk] at this
        rw [this.2.2.1] at ho; cases ho
      · intro j t hj
        exact subOk_free _ (h.sub j t hj) (subs_free h hne j t hj)
    | some m =>
      simp only [hk] at hstep
      obtain ⟨hb, hc, hs⟩ := h.mas k m hk
      rw [hr, hcl] at hc hs
      simp only [stageOf, if_true, Nat.lt_irrefl, if_false] at hc hs
      cases hcr : m.chReady <;> simp only [hcr] at hstep <;> try cases hstep
      · -- opened
        cases hl : m.loop <;> simp only [hl, Option.some.injEq] at hstep <;> try cases hstep
        refine inv_closer_at h hne (.joinOutput k true) (by simp) hk rfl ?_ ?_ ?_ ?_ (by simp only []; omega)
        · intro i hik
          rw [hcl]; simp [stageOf, hik]
        · have hch := hb.chans
          have hfl := hb.flow
          refine mbase_congr hb ?_ rfl rfl rfl rfl rfl rfl ?_ ?_
          · simp only [ChansOk, hl] at hch ⊢
            simp [hch]
          · simpa [hl, LoopPc.busy] using hfl
          · simp [LoopPc.serving]
        · simpa [stageOf, CountOk] using hc
        · simpa [stageOf, ShapeOk] using hs
      · -- closed
        have := set_self_eq hk
        have hs' : s.setCloser (.joinOutput k false) =
            (s.setMaster k m).setCloser (.joinOutput k false) := by
          simp [State.setMaster, this]
        rw [hs']
        refine inv_closer_at h hne (.joinOutput k false) (by simp) hk rfl ?_ ?_ ?_ ?_ rfl
        · intro i hik
          rw [hcl]; simp [stageOf, hik]
        · exact hb
        · simpa [stageOf, CountOk] using hc
        · simp only [stageOf, ShapeOk] at hs ⊢
          simp [hs, hcr]
  | joinOutput k ready =>
    have hne : s.closer ≠ .idle := by simp [hcl]
    have hr := h.closing hne
    simp only [hcl] at hstep
    cases hk : s.pool.masters[k]? with
    | none => simp [hk] at hstep
    | some m =>
      simp only [hk] at hstep
      obtain ⟨hb, hc, hs⟩ := h.mas k m hk
      rw [hr, hcl] at hc hs
      simp only [stageOf, if_true, Nat.lt_irrefl, if_false] at hc hs
      have hc0 : CountOk .shut m := by
        cases ready <;> simpa [CountOk] using hc
      have hs0 : ShapeOk .shut m := by
        cases ready <;> simp only [ShapeOk, if_true] at hs ⊢
        · exact ⟨hs.1, hs.2.1, hs.2.2.1⟩
        · simpa using hs
      cases hco : m.chOutput <;> simp only [hco] at hstep <;> try cases hstep
      · -- opened
        cases hl : m.loop <;> simp only [hl, Option.some.injEq] at hstep <;> try cases hstep
        refine inv_closer_at h hne (.joinReady k) (by simp) hk rfl ?_ ?_ ?_ ?_ rfl
        · intro i hik
          rw [hcl]; simp [stageOf, hik]
        · have hch := hb.chans
          have hfl := hb.flow
          have hown : m.owner = none := hs0.2.2
          refine mbase_congr hb ?_ rfl rfl rfl rfl rfl rfl ?_ ?_
          · simp only [ChansOk, hl] at hch ⊢
            simp [hch]
          · simpa [hl, LoopPc.busy] using hfl
          · simp [hown]
        · simpa [stageOf, CountOk] using hc0
        · simpa [stageOf, ShapeOk] using hs0
      · -- closed
        have := set_self_eq hk
        cases ready
        · simp only [Bool.false_eq_true, if_false, Option.some.injEq] at hstep
          subst hstep
          have hs' : s.setCloser (.joinTerm k) = (s.setMaster k m).setCloser (.joinTerm k) := by
            simp [State.setMaster, this]
          rw [hs']
          refine inv_closer_at h hne (.joinTerm k) (by simp) hk rfl ?_ ?_ ?_ ?_ rfl
          · intro i hik
            rw [hcl]; simp [stageOf, hik]
          · exact hb
          · simpa [stageOf, CountOk] using hc0
          · simp only [stageOf, ShapeOk, if_true, Nat.lt_irrefl, if_false, Bool.false_eq_true] at hs ⊢
            exact ⟨hs.1, hs.2.1, hs.2.2.1, chans_both_closed hb.chans hs.2.2.2 hco⟩
        · simp only [if_true, Option.some.injEq] at hstep
          subst hstep
          have hs' : s.setCloser (.joinReady k) = (s.setMaster k m).setCloser (.joinReady k) := by
            simp [State.setMaster, this]
          rw [hs']
          refine inv_closer_at h hne (.joinReady k) (by simp) hk rfl ?_ ?_ ?_ ?_ rfl
          · intro i hik
            rw [hcl]; simp [stageOf, hik]
          · exact hb
          · simpa [stageOf, CountOk] using hc0
          · simpa [stageOf, ShapeOk] using hs0
  | joinTerm k =>
    have hne : s.closer ≠ .idle := by simp [hcl]
    have hr := h.closing hne
    simp only [hcl] at hstep
    cases hk : s.pool.masters[k]? with
    | none => simp [hk] at hstep
    | some m =>
      simp only [hk, Option.some.injEq] at hstep
      subst hstep
      obtain ⟨hb, hc, hs⟩ := h.mas k m hk
      rw [hr, hcl] at hc hs
      simp only [stageOf, if_true, Nat.lt_irrefl, if_false] at hc hs
      refine inv_closer_at h hne (.joinReady (k + 1)) (by simp) hk rfl ?_ ?_ ?_ ?_ rfl
      · intro i hik
        rw [hcl]; simp only [stageOf, if_true, hik, if_false]
        by_cases h1 : i < k
        · have : i < k + 1 := by omega
          simp [h1, this]
        · have : ¬ i < k + 1 := by omega
          simp [h1, this]
      · refine ⟨hb.chans, hb.leaked, hb.inits, ?_, hb.flow, hb.owner⟩
        have := hb.terms
        simp only
        split <;> simp_all
      · simp only [stageOf, if_true, Nat.lt_succ_self, CountOk] at hc ⊢
        omega
      · simp only [stageOf, if_true, Nat.lt_succ_self, ShapeOk] at hs ⊢
        exact hs

theorem countP_set_gen (p : Sub → Bool) {l : List Sub} {j : Nat} {t : Sub} (t' : Sub)
    (hj : l[j]? = some t) :
    (l.set j t').countP p + (if p t then 1 else 0) =
      l.countP p + (if p t' then 1 else 0) := by
  have hlt := lt_length_of_get hj
  have hg : l[j] = t := by
    rw [List.getElem?_eq_getElem hlt] at hj
    exact Option.some.inj hj
  rw [List.countP_set _ _ _ _ hlt, hg]
  cases ho : p t
  · simp
  · have hpos : 0 < l.countP p := List.countP_pos_iff.mpr ⟨t, List.getElem?_mem hj, ho⟩
    simp
    omega

theorem countP_set_claims {l : List Sub} {j : Nat} {t t' : Sub} (i : Nat) (hj : l[j]? = some t)
    (h : t'.claimed = t.claimed) :
    (l.set j t').countP (Sub.claims i) = l.countP (Sub.claims i) := by
  have := countP_set_gen (Sub.claims i) t' hj
  simp only [Sub.claims, h] at this ⊢
  omega

theorem countP_set_eq {l : List Sub} {j : Nat} {t t' : Sub} (hj : l[j]? = some t)
    (h : t'.outstanding = t.outstanding) :
    (l.set j t').countP Sub.outstanding = l.countP Sub.outstanding := by
  have hlt := lt_length_of_get hj
  have hg : l[j] = t := by
    rw [List.getElem?_eq_getElem hlt] at hj
    exact Option.some.inj hj
  rw [List.countP_set _ _ _ _ hlt, hg, h]
  cases ho : t.outstanding
  · simp
  · have hpos : 0 < l.countP Sub.outstanding :=
      List.countP_pos_iff.mpr ⟨t, List.getElem?_mem hj, ho⟩
    simp
    omega

theorem countP_set_done {l : List Sub} {j : Nat} {t : Sub} (t' : Sub) (hj : l[j]? = some t)
    (h1 : t.outstanding = true) (h2 : t'.outstanding = false) :
    ((l.set j t').countP Sub.outstanding : Int) = (l.countP Sub.outstanding : Int) - 1 := by
  have hlt := lt_length_of_get hj
  have hg : l[j] = t := by
    rw [List.getElem?_eq_getElem hlt] at hj
    exact Option.some.inj hj
  have hpos : 0 < l.countP Sub.outstanding :=
    List.countP_pos_iff.mpr ⟨t, List.getElem?_mem hj, h1⟩
  rw [List.countP_set _ _ _ _ hlt, hg, h1, h2]
  simp
  omega

/-- A statement of a submission that touches no controller. -/
theorem inv_sub_only {ws : List Worker} {s : State} {j : Nat} {t t' : Sub} (p' : Int)
    (h : Inv ws s) (hj : s.subs[j]? = some t)
    (hne : ∀ k, ¬ t.pc.engaged k)
    (hp : p' = wrapInt32 ((s.subs.set j t').countP Sub.outstanding))
    (hsub : SubOk ws s j t') (hclaim : t'.claimed = t.claimed) (htm : TimerOk s.now t') :
    Inv ws ({ s with pool := { s.pool with pending := p' } }.setSub j t') := by
  refine ⟨h.wk, h.run01, h.closing, h.sel, hp, h.mas, ?_, ?_, ?_, ?_⟩
  · intro i m j' hi ho
    obtain ⟨t0, ht0, he⟩ := h.own i m j' hi ho
    have hjj : j ≠ j' := by
      rintro rfl
      rw [hj] at ht0; cases ht0
      exact hne i he
    refine ⟨t0, ?_, he⟩
    simp only [State.setSub]
    rw [get_set_other hjj]; exact ht0
  · intro j' t0 hj'
    simp only [State.setSub] at hj'
    rcases get_set_cases hj' with ⟨rfl, rfl⟩ | ⟨_, hj''⟩
    · exact hsub
    · exact h.sub j' t0 hj''
  · intro i m hi
    simp only [State.setSub]
    rw [countP_set_claims i hj hclaim]
    exact h.cnt i m hi
  · intro j' t0 hj'
    simp only [State.setSub] at hj'
    rcases get_set_cases hj' with ⟨rfl, rfl⟩ | ⟨_, hj''⟩
    · exact htm
    · exact h.tmr j' t0 hj''

/-- A joint statement of submission `j` and controller `i` while the pool is
running and no `Close` is in progress. -/
theorem inv_joint {ws : List Worker} {s : State} {j i : Nat} {t t' : Sub} {m m' : taskMaster}
    (h : Inv ws s) (hj : s.subs[j]? = some t) (hi : s.pool.masters[i]? = some m)
    (hcl : s.closer = .idle) (hr : s.pool.running = 1)
    (hw : m'.worker = m.worker)
    (hb : MBase m') (hc : CountOk .live m') (hs : ShapeOk .live m')
    (hout : t'.outstanding = t.outstanding)
    (hown : m.owner = none ∨ m.owner = some j)
    (hown' : m'.owner = none ∨ m'.owner = some j)
    (heng : ∀ k, t.pc.engaged k → k = i)
    (heng' : m'.owner = some j → t'.pc.engaged i)
    (hsub : SubOk ws ((s.setMaster i m').setSub j t') j t')
    (hcnt : (t'.claimed = t.claimed ∧ m'.readySent = m.readySent ∧ m'.joinRecv = m.joinRecv) ∨
      (t.claimed = none ∧ t'.claimed = some i ∧ m'.readySent = m.readySent + 1 ∧
        m'.joinRecv = m.joinRecv))
    (htm : TimerOk s.now t') :
    Inv ws ((s.setMaster i m').setSub j t') := by
  have hst : ∀ k, stageOf s.pool.running s.closer k = .live := by
    intro k; simp [stageOf, hr, hcl]
  refine ⟨?_, h.run01, h.closing, ?_, ?_, ?_, ?_, ?_, ?_, ?_⟩
  · simp only [State.setMaster, State.setSub]
    rw [map_worker_set hi hw]; exact h.wk
  · intro hr'
    simp only [State.setMaster, State.setSub, List.length_set]
    exact h.sel hr
  · simp only [State.setMaster, State.setSub]
    rw [countP_set_eq hj hout]; exact h.pend
  · apply mas_setMaster h hb
    · rw [hst]; exact hc
    · rw [hst]; exact hs
  · intro k mk j' hk ho
    simp only [State.setMaster, State.setSub] at hk ⊢
    rcases get_set_cases hk with ⟨rfl, rfl⟩ | ⟨hki, hk'⟩
    · rcases hown' with h0 | h0
      · rw [h0] at ho; cases ho
      · rw [h0] at ho; cases ho
        exact ⟨t', get_set_self hj, heng' h0⟩
    · obtain ⟨t0, ht0, he⟩ := h.own k mk j' hk' ho
      have hjj : j ≠ j' := by
        rintro rfl
        rw [hj] at ht0; cases ht0
        exact hki (heng k he)
      refine ⟨t0, ?_, he⟩
      rw [get_set_other hjj]; exact ht0
  · intro j' t0 hj'
    simp only [State.setMaster, State.setSub] at hj'
    rcases get_set_cases hj' with ⟨rfl, rfl⟩ | ⟨hjj, hj''⟩
    · exact hsub
    · have := h.sub j' t0 hj''
      have hne : m.owner ≠ some j' := by
        rcases hown with h0 | h0
        · rw [h0]; simp
        · rw [h0]; intro e; cases e; exact hjj rfl
      exact subOk_setMaster this hi hne
  · intro k mk hk
    simp only [State.setMaster, State.setSub] at hk ⊢
    have hgen := countP_set_gen (Sub.claims k) t' hj
    simp only [Sub.claims] at hgen ⊢
    rcases get_set_cases hk with ⟨rfl, rfl⟩ | ⟨hki, hk'⟩
    · have hold := h.cnt k m hi
      simp only [Sub.claims] at hold
      rcases hcnt with ⟨h1, h2, h3⟩ | ⟨h1, h2, h3, h4⟩
      · simp only [h1] at hgen; omega
      · simp only [h1, h2] at hgen
        simp at hgen
        omega
    · have hold := h.cnt k mk hk'
      simp only [Sub.claims] at hold
      rcases hcnt with ⟨h1, h2, h3⟩ | ⟨h1, h2, h3, h4⟩
      · simp only [h1] at hgen; omega
      · simp only [h1, h2] at hgen
        have : (some i == some k) = false := by simp; exact fun e => hki e.symm
        simp [this] at hgen
        omega
  · intro j' t0 hj'
    simp only [State.setMaster, State.setSub] at hj'
    rcases get_set_cases hj' with ⟨rfl, rfl⟩ | ⟨_, hj''⟩
    · exact htm
    · exact h.tmr j' t0 hj''

theorem set_get_self {α : Type} {l : List α} {i : Nat} {a : α} (h : l[i]? = some a) :
    l.set i a = l := by
  apply List.ext_getElem?
  intro k
  by_cases hik : i = k
  · subst hik; rw [get_set_self h, h]
  · rw [get_set_other hik]

theorem worker_of_master {ws : List Worker} {s : State} {i : Nat} {m : taskMaster}
    (h : Inv ws s) (hi : s.pool.masters[i]? = some m) : ws[i]? = some m.worker := by
  rw [← h.wk, List.getElem?_map, hi]; rfl

theorem live_of_idle {ws : List Worker} {s : State} {i : Nat} {m : taskMaster}
    (h : Inv ws s) (hi : s.pool.masters[i]? = some m) (hcl : s.closer = .idle)
    (hr : s.pool.running = 1) : MBase m ∧ CountOk .live m ∧ ShapeOk .live m := by
  have := h.mas i m hi
  simpa [stageOf, hcl, hr] using this

theorem outstanding_eq {t t' : Sub} (ha : t'.async = t.async)
    (h1 : t.pc.isFinished = false) (h2 : t'.pc.isFinished = false) :
    t'.outstanding = t.outstanding := by
  simp [Sub.outstanding, ha, h1, h2]

theorem pend_set {ws : List Worker} {s : State} {j : Nat} {t t' : Sub} (h : Inv ws s)
    (hj : s.subs[j]? = some t) (ha : t'.async = t.async)
    (h1 : t.pc.isFinished = false) (h2 : t'.pc.isFinished = false) :
    s.pool.pending = wrapInt32 ((s.subs.set j t').countP Sub.outstanding) := by
  rw [countP_set_eq hj (outstanding_eq ha h1 h2)]
  exact h.pend

theorem not_engaged {pc : SubPc} (h1 : ∀ i, pc ≠ .sendInput i) (h2 : ∀ i, pc ≠ .armTimer i)
    (h3 : ∀ i, pc ≠ .waitOutput i) : ∀ k, ¬ pc.engaged k := by
  intro k hk
  rcases hk with hk | hk | hk
  · exact h1 k hk
  · exact h2 k hk
  · exact h3 k hk

theorem inv_subStep {ws : List Worker} {s s' : State} {j : Nat} (h : Inv ws s)
    (hstep : subStep s j = some s') : Inv ws s' := by
  unfold subStep at hstep
  cases hj : s.subs[j]? with
  | none => simp [hj] at hstep
  | some t =>
    simp only [hj] at hstep
    have hsub := h.sub j t hj
    unfold SubOk at hsub
    cases hp : t.pc with
    | start =>
      simp only [hp] at hstep hsub
      split at hstep
      · rename_i hcl
        simp only [Option.some.injEq] at hstep
        subst hstep
        refine inv_sub_only s.pool.pending h hj (not_engaged (by simp [hp]) (by simp [hp]) (by simp [hp])) ?_ ?_ rfl
          (by simp [TimerOk])
        · exact pend_set h hj rfl (by simp [hp, SubPc.isFinished]) rfl
        · simp [SubOk, hcl, hsub]
      · cases hstep
    | locked =>
      simp only [hp] at hstep hsub
      split at hstep <;> simp only [Option.some.injEq] at hstep <;> subst hstep
      · rename_i hrun
        refine inv_sub_only s.pool.pending h hj (not_engaged (by simp [hp]) (by simp [hp]) (by simp [hp])) ?_ ?_ rfl
          ?_
        · exact pend_set h hj rfl (by simp [hp, SubPc.isFinished]) rfl
        · simp [SubOk, hsub, (isRunning_iff _).mp hrun]
        · simp only [TimerOk]
          intro d hd
          simp only [hd]
      · refine inv_sub_only s.pool.pending h hj (not_engaged (by simp [hp]) (by simp [hp]) (by simp [hp])) ?_ ?_ rfl
          (by simp [TimerOk])
        · exact pend_set h hj rfl (by simp [hp, SubPc.isFinished]) rfl
        · simp [SubOk, hsub, RetOk]
    | select => simp [hp] at hstep
    | sendInput i =>
      simp only [hp] at hstep hsub
      obtain ⟨hcl, hr, hbef, hclm, m, hi, hown, hl⟩ := hsub
      simp only [hi, hl] at hstep
      obtain ⟨hb, hc, hs⟩ := live_of_idle h hi hcl hr
      simp only [ShapeOk] at hs
      have hpc : ∃ pc', (pc' = SubPc.armTimer i ∨ pc' = SubPc.waitOutput i) ∧
          (pc' = SubPc.waitOutput i → t.timeout = none) ∧
          (match t.timeout with
            | some _ => SubPc.armTimer i
            | none => SubPc.waitOutput i) = pc' := by
        cases t.timeout <;> simp
      obtain ⟨pc', hpc, hnone, hpe⟩ := hpc
      simp only [hs.2.1, hpe, Option.some.injEq] at hstep
      subst hstep
      have hch := hb.chans
      have hfl := hb.flow
      have hfin : pc'.isFinished = false := by rcases hpc with rfl | rfl <;> rfl
      refine inv_joint h hj hi hcl hr rfl ?_ (count_congr hc rfl rfl rfl) ?_ ?_
        (Or.inr hown) (Or.inr hown) ?_ ?_ ?_ (Or.inl ⟨rfl, rfl, rfl⟩) ?_
      · refine mbase_congr hb ?_ rfl rfl rfl rfl rfl rfl ?_ ?_
        · simp only [ChansOk, hl] at hch ⊢
          exact ⟨hch.1, by simp, hch.2.2⟩
        · simp only [hl, LoopPc.busy] at hfl ⊢; simp [hfl]
        · simp [LoopPc.serving]
      · simp [ShapeOk, hs.1]
      · exact outstanding_eq rfl (by simp [hp, SubPc.isFinished]) hfin
      · intro k hk
        rcases hk with hk | hk | hk <;> simp [hp] at hk
        exact hk.symm
      · intro _
        rcases hpc with rfl | rfl
        · right; left; rfl
        · right; right; rfl
      · rcases hpc with rfl | rfl
        · simp only [SubOk, State.setMaster, State.setSub]
          exact ⟨hcl, hr, hbef, hclm, _, get_set_self hi, hown, Or.inl rfl⟩
        · simp only [SubOk, State.setMaster, State.setSub]
          exact ⟨hcl, hr, hbef, hclm, _, get_set_self hi, hown, Or.inl rfl⟩
      · rcases hpc with rfl | rfl
        · simp [TimerOk]
        · have := hnone rfl
          simp [TimerOk, this]
    | armTimer i =>
      simp only [hp] at hstep hsub
      obtain ⟨hcl, hr, hbef, hclm, m, hi, hown, hl⟩ := hsub
      cases hto : t.timeout with
      | none => simp [hto] at hstep
      | some d =>
        simp only [hto, Option.some.injEq] at hstep
        subst hstep
        obtain ⟨hb, hc, hs⟩ := live_of_idle h hi hcl hr
        have hself : s.setMaster i m = s := by
          simp only [State.setMaster, set_get_self hi]
        have key : Inv ws ((s.setMaster i m).setSub j { t with
            pc := .waitOutput i,
            timer := timeAfter s.now (wrapInt64 (d - timeSince s.now t.before)) }) := by
          refine inv_joint h hj hi hcl hr rfl hb hc hs ?_ (Or.inr hown) (Or.inr hown) ?_ ?_ ?_
            (Or.inl ⟨rfl, rfl, rfl⟩) ?_
          · exact outstanding_eq rfl (by simp [hp, SubPc.isFinished]) rfl
          · intro k hk
            rcases hk with hk | hk | hk <;> simp [hp] at hk
            exact hk.symm
          · intro _; right; right; rfl
          · simp only [SubOk, State.setMaster, State.setSub]
            exact ⟨hcl, hr, hbef, hclm, _, get_set_self hi, hown, hl⟩
          · simp only [TimerOk]
            intro d' hd'
            rw [hto] at hd'; cases hd'
            exact ⟨s.now, hbef, le_refl _, rfl⟩
        rw [hself] at key
        simp only [hto] at key
        exact key
    | waitOutput i =>
      simp only [hp] at hstep hsub
      obtain ⟨hcl, hr, hbef, hclm, m, hi, hown, hl⟩ := hsub
      simp only [hi] at hstep
      obtain ⟨hb, hc, hs⟩ := live_of_idle h hi hcl hr
      simp only [ShapeOk] at hs
      have hch := hb.chans
      have hfl := hb.flow
      have hco : m.chOutput = .opened := (chans_input_opened hch hs.2.1).2.2.2.2
      simp only [hco] at hstep
      rcases hl with hl | hl
      · simp [hl] at hstep
      · simp only [hl, Option.some.injEq] at hstep
        subst hstep
        refine inv_joint h hj hi hcl hr rfl ?_ (count_congr hc rfl rfl rfl) ?_ ?_
          (Or.inr hown) (Or.inl rfl) ?_ ?_ ?_ (Or.inl ⟨rfl, rfl, rfl⟩) (by simp [TimerOk])
        · refine mbase_congr hb ?_ rfl rfl rfl rfl rfl rfl ?_ ?_
          · simp only [ChansOk, hl] at hch ⊢
            exact ⟨hch.1, hch.2.1, trivial⟩
          · simp only [hl, LoopPc.busy] at hfl ⊢; simp [hfl]
          · simp
        · simp [ShapeOk, hs.1, hs.2.1]
        · exact outstanding_eq rfl (by simp [hp, SubPc.isFinished]) rfl
        · intro k hk
          rcases hk with hk | hk | hk <;> simp [hp] at hk
          exact hk.symm
        · intro hx; simp at hx
        · simp only [SubOk, State.setMaster, State.setSub]
          refine ⟨hcl, fun _ => ⟨i, m.worker, hclm, worker_of_master h hi, rfl⟩⟩
    | unlock r =>
      simp only [hp, Option.some.injEq] at hstep hsub
      subst hstep
      refine inv_sub_only s.pool.pending h hj (not_engaged (by simp [hp]) (by simp [hp]) (by simp [hp])) ?_ ?_ rfl
          (by simp [TimerOk])
      · exact pend_set h hj rfl (by simp [hp, SubPc.isFinished]) rfl
      · simp only [SubOk]; exact hsub.2
    | returned r =>
      simp only [hp] at hstep hsub
      split at hstep
      · cases hstep
      · rename_i ha
        simp only [Option.some.injEq] at hstep
        subst hstep
        refine inv_sub_only s.pool.pending h hj (not_engaged (by simp [hp]) (by simp [hp]) (by simp [hp])) ?_ ?_ rfl
          (by simp [TimerOk])
        · exact pend_set h hj rfl (by simp [hp, SubPc.isFinished]) rfl
        · simp only [SubOk]; exact ⟨hsub, ha⟩
      · rename_i ha
        simp only [Option.some.injEq] at hstep
        subst hstep
        refine inv_sub_only _ h hj (not_engaged (by simp [hp]) (by simp [hp]) (by simp [hp])) ?_ ?_ rfl
          (by simp [TimerOk])
        · rw [h.pend]
          have := countP_set_done { t with pc := .finished r } hj
            (by simp [Sub.outstanding, hp, ha, SubPc.isFinished])
            (by simp [Sub.outstanding, ha, SubPc.isFinished])
          rw [this]
          unfold wrapInt32; omega
        · simp only [SubOk]; exact hsub
    | afterDone r =>
      simp only [hp, Option.some.injEq] at hstep hsub
      subst hstep
      refine inv_sub_only _ h hj (not_engaged (by simp [hp]) (by simp [hp]) (by simp [hp])) ?_ ?_ rfl
          (by simp [TimerOk])
      · rw [h.pend]
        have := countP_set_done { t with pc := .finished r } hj
          (by simp [Sub.outstanding, hp, hsub.2, SubPc.isFinished])
          (by simp [Sub.outstanding, SubPc.isFinished])
        rw [this]
        unfold wrapInt32; omega
      · simp only [SubOk]; exact hsub.1
    | finished r => simp [hp] at hstep

theorem range_get {n c i : Nat} (h : (List.range n)[c]? = some i) : i = c := by
  have hlt : c < (List.range n).length := lt_length_of_get h
  rw [List.getElem?_eq_getElem hlt] at h
  simp at h
  exact h.symm

theorem inv_subSelect {ws : List Worker} {s s' : State} {j c : Nat} (h : Inv ws s)
    (hstep : subSelect s j c = some s') : Inv ws s' := by
  unfold subSelect at hstep
  cases hj : s.subs[j]? with
  | none => simp [hj] at hstep
  | some t =>
    simp only [hj] at hstep
    have hsub := h.sub j t hj
    unfold SubOk at hsub
    cases hp : t.pc <;> simp only [hp] at hstep hsub <;> try cases hstep
    obtain ⟨hcl, hr, hbef, hclm⟩ := hsub
    cases hc : s.pool.selects[c]? with
    | none =>
      simp only [hc] at hstep
      split at hstep
      · simp only [Option.some.injEq] at hstep
        subst hstep
        refine inv_sub_only s.pool.pending h hj (not_engaged (by simp [hp]) (by simp [hp]) (by simp [hp])) ?_ ?_ rfl
          (by simp [TimerOk])
        · exact pend_set h hj rfl (by simp [hp, SubPc.isFinished]) rfl
        · simp [SubOk, hcl, RetOk]
      · cases hstep
    | some i =>
      simp only [hc] at hstep
      have hic : i = c := by
        have := h.sel hr
        rw [this] at hc
        exact range_get hc
      subst hic
      cases hi : s.pool.masters[i]? with
      | none => simp [hi] at hstep
      | some m =>
        simp only [hi] at hstep
        obtain ⟨hb, hcn, hs⟩ := live_of_idle h hi hcl hr
        simp only [ShapeOk] at hs
        have hch := hb.chans
        have hfl := hb.flow
        have hcr : m.chReady = .opened := (chans_input_opened hch hs.2.1).2.2.2.1
        simp only [hcr] at hstep
        cases hl : m.loop <;> simp only [hl, Option.some.injEq] at hstep <;> try cases hstep
        have hown : m.owner = none := owner_none_of_not_serving hb (by simp [hl, LoopPc.serving])
        refine inv_joint h hj hi hcl hr rfl ?_ (count_congr hcn rfl rfl rfl) ?_ ?_
          (Or.inl hown) (Or.inr rfl) ?_ ?_ ?_ (Or.inr ⟨hclm, rfl, rfl, rfl⟩) (by simp [TimerOk])
        · refine mbase_congr hb ?_ rfl rfl rfl rfl rfl rfl ?_ ?_
          · simp only [ChansOk, hl] at hch ⊢
            exact ⟨trivial, hch.2.1, hch.2.2⟩
          · simp only [hl, LoopPc.busy] at hfl ⊢; simp [hfl]
          · simp [LoopPc.serving]
        · simp [ShapeOk, hs.1, hs.2.1]
        · exact outstanding_eq rfl (by simp [hp, SubPc.isFinished]) rfl
        · intro k hk
          rcases hk with hk | hk | hk <;> simp [hp] at hk
        · intro _; left; rfl
        · unfold SubOk
          exact ⟨hcl, hr, hbef, rfl, _, get_set_self hi, rfl, rfl⟩

theorem inv_subTimeout {ws : List Worker} {s s' : State} {j : Nat} (h : Inv ws s)
    (hstep : subTimeout s j = some s') : Inv ws s' := by
  unfold subTimeout at hstep
  cases hj : s.subs[j]? with
  | none => simp [hj] at hstep
  | some t =>
    simp only [hj] at hstep
    have hsub := h.sub j t hj
    unfold SubOk at hsub
    cases hp : t.pc <;> simp only [hp] at hstep hsub <;> try cases hstep
    rename_i i
    obtain ⟨hcl, hr, hbef, hclm, m, hi, hown, hl⟩ := hsub
    split at hstep
    · simp only [hi, Option.some.injEq] at hstep
      subst hstep
      obtain ⟨hb, hcn, hs⟩ := live_of_idle h hi hcl hr
      simp only [ShapeOk] at hs
      refine inv_joint h hj hi hcl hr rfl ?_ (count_congr hcn rfl rfl rfl) ?_ ?_
        (Or.inr hown) (Or.inl rfl) ?_ ?_ ?_ (Or.inl ⟨rfl, rfl, rfl⟩) (by simp [TimerOk])
      · exact mbase_congr hb hb.chans rfl rfl rfl rfl rfl rfl hb.flow (by simp)
      · simp only [ShapeOk]; exact hs
      · exact outstanding_eq rfl (by simp [hp, SubPc.isFinished]) rfl
      · intro k hk
        rcases hk with hk | hk | hk <;> simp [hp] at hk
        exact hk.symm
      · intro hx; simp at hx
      · simp [SubOk, State.setMaster, State.setSub, hcl, RetOk]
    · cases hstep

/-- Every transition keeps the invariant. -/
theorem inv_step {ws : List Worker} {s s' : State} {a : Action} (h : Inv ws s)
    (hstep : step s a = some s') : Inv ws s' := by
  cases a with
  | tick =>
    simp only [step, Option.some.injEq] at hstep
    subst hstep; exact inv_tick h
  | run =>
    simp only [step] at hstep
    split at hstep
    · rename_i hl
      simp only [Option.some.injEq] at hstep
      subst hstep; exact inv_run h hl
    · cases hstep
  | close =>
    simp only [step] at hstep
    split at hstep
    · rename_i hl
      simp only [Option.some.injEq] at hstep
      subst hstep; exact inv_close h hl
    · cases hstep
  | closeStep => exact inv_closeStep h hstep
  | call x tmo =>
    simp only [step, Option.some.injEq] at hstep
    subst hstep; exact inv_call h x tmo
  | callAsync x tmo b =>
    simp only [step, Option.some.injEq] at hstep
    subst hstep; exact inv_callAsync h x tmo b
  | sub j => exact inv_subStep h hstep
  | subSelect j c => exact inv_subSelect h hstep
  | subTimeout j => exact inv_subTimeout h hstep
  | loop i r =>
    simp only [step] at hstep
    cases hi : s.pool.masters[i]? with
    | none => simp [hi] at hstep
    | some m =>
      simp only [hi] at hstep
      cases hl : loopStep m r with
      | none => simp [hl] at hstep
      | some m' =>
        simp only [hl, Option.map_some', Option.some.injEq] at hstep
        subst hstep; exact inv_loop h hi hl

theorem inv_exec {ws : List Worker} {acts : List Action} :
    ∀ {s s' : State}, Inv ws s → exec s acts = some s' → Inv ws s' := by
  induction acts with
  | nil =>
    intro s s' h he
    simp only [exec, Option.some.injEq] at he
    subst he; exact h
  | cons a as ih =>
    intro s s' h he
    simp only [exec] at he
    cases hs : step s a with
    | none => simp [hs] at he
    | some s1 =>
      simp only [hs, Option.some_bind] at he
      exact ih (inv_step h hs) he

/-- The invariant holds in every reachable state. -/
theorem reachable_inv {ws : List Worker} {s : State} (h : Reachable ws s) : Inv ws s := by
  obtain ⟨acts, he⟩ := h
  exact inv_exec (inv_init ws) he

theorem get_append_last {α : Type} (l : List α) (a : α) : (l ++ [a])[l.length]? = some a := by
  rw [List.getElem?_append_right (Nat.le_refl _)]
  simp

theorem set_append_last {α : Type} (l : List α) (a b : α) :
    (l ++ [a]).set l.length b = l ++ [b] := by
  induction l with
  | nil => rfl
  | cons x l ih => simp [List.set, ih]

theorem mstep_of_set {s : State} {k : Nat} {mk mk' : taskMaster} {ms' : List taskMaster}
    (hk : s.pool.masters[k]? = some mk) (hms : ms' = s.pool.masters.set k mk')
    (hstep : MStep s k mk mk') :
    ∀ (i : Nat) (m : taskMaster), s.pool.masters[i]? = some m →
      ∃ m', ms'[i]? = some m' ∧ MStep s i m m' := by
  intro i m hi
  subst hms
  by_cases hik : k = i
  · subst hik
    rw [hk] at hi; cases hi
    exact ⟨mk', get_set_self hk, hstep⟩
  · exact ⟨m, by rw [get_set_other hik]; exact hi, .same⟩

theorem mstep_same {s : State} {ms' : List taskMaster} (hms : ms' = s.pool.masters) :
    ∀ (i : Nat) (m : taskMaster), s.pool.masters[i]? = some m →
      ∃ m', ms'[i]? = some m' ∧ MStep s i m m' := by
  intro i m hi
  subst hms
  exact ⟨m, hi, .same⟩

theorem closeStep_master {s s' : State} (hstep : closeStep s = some s') :
    ∀ (i : Nat) (m : taskMaster), s.pool.masters[i]? = some m →
      ∃ m', s'.pool.masters[i]? = some m' ∧ MStep s i m m' := by
  unfold closeStep at hstep
  cases hcl : s.closer with
  | idle => simp [hcl] at hstep
  | closeInput k =>
    simp only [hcl] at hstep
    cases hk : s.pool.masters[k]? with
    | none =>
      simp only [hk, Option.some.injEq] at hstep
      subst hstep; exact mstep_same rfl
    | some m =>
      simp only [hk] at hstep
      cases hci : m.chInput <;> simp only [hci] at hstep <;> first
        | (cases hstep; done)
        | (simp only [Option.some.injEq] at hstep; subst hstep
           exact mstep_of_set hk rfl (.closeInput hcl hci))
  | storeOpen k =>
    simp only [hcl] at hstep
    cases hk : s.pool.masters[k]? with
    | none => simp [hk] at hstep
    | some m =>
      simp only [hk, Option.some.injEq] at hstep
      subst hstep
      exact mstep_of_set hk rfl (.storeOpen hcl)
  | joinReady k =>
    simp only [hcl] at hstep
    cases hk : s.pool.masters[k]? with
    | none =>
      simp only [hk, Option.some.injEq] at hstep
      subst hstep; exact mstep_same rfl
    | some m =>
      simp only [hk] at hstep
      cases hcr : m.chReady <;> simp only [hcr] at hstep
      · cases hstep
      · cases hl : m.loop <;> simp only [hl] at hstep <;> first
          | (cases hstep; done)
          | (simp only [Option.some.injEq] at hstep; subst hstep
             refine mstep_of_set hk rfl ?_
             have := MStep.joinReady hcl hcr hl
             simpa [hcr] using this)
      · simp only [Option.some.injEq] at hstep
        subst hstep; exact mstep_same rfl
  | joinOutput k b =>
    simp only [hcl] at hstep
    cases hk : s.pool.masters[k]? with
    | none => simp [hk] at hstep
    | some m =>
      simp only [hk] at hstep
      cases hco : m.chOutput <;> simp only [hco] at hstep
      · cases hstep
      · cases hl : m.loop <;> simp only [hl] at hstep <;> first
          | (cases hstep; done)
          | (simp only [Option.some.injEq] at hstep; subst hstep
             refine mstep_of_set hk rfl ?_
             have := MStep.joinOutput b _ hcl hco hl
             simpa [hco] using this)
      · split at hstep <;> simp only [Option.some.injEq] at hstep <;> subst hstep <;>
          exact mstep_same rfl
  | joinTerm k =>
    simp only [hcl] at hstep
    cases hk : s.pool.masters[k]? with
    | none => simp [hk] at hstep
    | some m =>
      simp only [hk, Option.some.injEq] at hstep
      subst hstep
      exact mstep_of_set hk rfl (.joinTerm hcl)

theorem subStep_master {s s' : State} {j : Nat} (hstep : subStep s j = some s') :
    ∀ (i : Nat) (m : taskMaster), s.pool.masters[i]? = some m →
      ∃ m', s'.pool.masters[i]? = some m' ∧ MStep s i m m' := by
  unfold subStep at hstep
  cases hj : s.subs[j]? with
  | none => simp [hj] at hstep
  | some t =>
    simp only [hj] at hstep
    cases hp : t.pc with
    | start =>
      simp only [hp] at hstep
      split at hstep
      · simp only [Option.some.injEq] at hstep
        subst hstep; exact mstep_same rfl
      · cases hstep
    | locked =>
      simp only [hp] at hstep
      split at hstep <;> simp only [Option.some.injEq] at hstep <;> subst hstep <;>
        exact mstep_same rfl
    | select => simp [hp] at hstep
    | sendInput k =>
      simp only [hp] at hstep
      cases hk : s.pool.masters[k]? with
      | none => simp [hk] at hstep
      | some mk =>
        simp only [hk] at hstep
        split at hstep
        · rename_i hci hl
          simp only [Option.some.injEq] at hstep
          subst hstep
          exact mstep_of_set hk rfl (.send j t hj hp hci hl)
        · cases hstep
    | armTimer k =>
      simp only [hp] at hstep
      split at hstep
      · cases hstep
      · simp only [Option.some.injEq] at hstep
        subst hstep; exact mstep_same rfl
    | waitOutput k =>
      simp only [hp] at hstep
      cases hk : s.pool.masters[k]? with
      | none => simp [hk] at hstep
      | some mk =>
        simp only [hk] at hstep
        cases hco : mk.chOutput <;> simp only [hco] at hstep
        · cases hstep
        · cases hl : mk.loop <;> simp only [hl] at hstep <;> first
            | (cases hstep; done)
            | (simp only [Option.some.injEq] at hstep; subst hstep
               refine mstep_of_set hk rfl ?_
               have := MStep.recv j t _ hj hp hco hl
               simpa [hco] using this)
        · simp only [Option.some.injEq] at hstep
          subst hstep
          refine mstep_of_set hk rfl ?_
          have : MStep s k mk _ := MStep.release j t hj hp
          simpa [hco] using this
    | unlock r =>
      simp only [hp, Option.some.injEq] at hstep
      subst hstep; exact mstep_same rfl
    | returned r =>
      simp only [hp] at hstep
      split at hstep
      · cases hstep
      · simp only [Option.some.injEq] at hstep
        subst hstep; exact mstep_same rfl
      · simp only [Option.some.injEq] at hstep
        subst hstep; exact mstep_same rfl
    | afterDone r =>
      simp only [hp, Option.some.injEq] at hstep
      subst hstep; exact mstep_same rfl
    | finished r => simp [hp] at hstep

theorem subSelect_master {s s' : State} {j c : Nat} (hstep : subSelect s j c = some s') :
    ∀ (i : Nat) (m : taskMaster), s.pool.masters[i]? = some m →
      ∃ m', s'.pool.masters[i]? = some m' ∧ MStep s i m m' := by
  unfold subSelect at hstep
  cases hj : s.subs[j]? with
  | none => simp [hj] at hstep
  | some t =>
    simp only [hj] at hstep
    cases hp : t.pc <;> simp only [hp] at hstep <;> try cases hstep
    cases hc : s.pool.selects[c]? with
    | none =>
      simp only [hc] at hstep
      split at hstep
      · simp only [Option.some.injEq] at hstep
        subst hstep; exact mstep_same rfl
      · cases hstep
    | some k =>
      simp only [hc] at hstep
      cases hk : s.pool.masters[k]? with
      | none => simp [hk] at hstep
      | some mk =>
        simp only [hk] at hstep
        cases hcr : mk.chReady <;> simp only [hcr] at hstep
        · cases hstep
        · cases hl : mk.loop <;> simp only [hl] at hstep <;> first
            | (cases hstep; done)
            | (simp only [Option.some.injEq] at hstep; subst hstep
               refine mstep_of_set hk rfl ?_
               have : MStep s k mk _ := MStep.claim j t hj hp hcr hl
               simpa [hcr] using this)
        · simp only [Option.some.injEq] at hstep
          subst hstep; exact mstep_same rfl

theorem subTimeout_master {s s' : State} {j : Nat} (hstep : subTimeout s j = some s') :
    ∀ (i : Nat) (m : taskMaster), s.pool.masters[i]? = some m →
      ∃ m', s'.pool.masters[i]? = some m' ∧ MStep s i m m' := by
  unfold subTimeout at hstep
  cases hj : s.subs[j]? with
  | none => simp [hj] at hstep
  | some t =>
    simp only [hj] at hstep
    cases hp : t.pc <;> simp only [hp] at hstep <;> try cases hstep
    rename_i k
    split at hstep
    · cases hk : s.pool.masters[k]? with
      | none => simp [hk] at hstep
      | some mk =>
        simp only [hk, Option.some.injEq] at hstep
        subst hstep
        exact mstep_of_set hk rfl (.release j t hj hp)
    · cases hstep

/-- Every transition changes each controller in one of the ways of `MStep`. -/
theorem step_master {s s' : State} {a : Action} (hstep : step s a = some s') :
    ∀ (i : Nat) (m : taskMaster), s.pool.masters[i]? = some m →
      ∃ m', s'.pool.masters[i]? = some m' ∧ MStep s i m m' := by
  cases a with
  | tick =>
    simp only [step, Option.some.injEq] at hstep
    subst hstep; exact mstep_same rfl
  | run =>
    simp only [step] at hstep
    split at hstep
    · rename_i hl
      simp only [Option.some.injEq] at hstep
      subst hstep
      intro i m hi
      by_cases hr : s.pool.running = 1
      · exact ⟨m, by simpa [TaskPool.Run, TaskPool.isRunning, hr] using hi, .same⟩
      · exact ⟨m.run, by simp [TaskPool.Run, TaskPool.isRunning, hr, TaskPool.setRunning, hi],
          .run hr hl⟩
    · cases hstep
  | close =>
    simp only [step] at hstep
    split at hstep
    · simp only [Option.some.injEq] at hstep
      subst hstep
      apply mstep_same
      simp only [closeEnter]
      split <;> rfl
    · cases hstep
  | closeStep => exact closeStep_master hstep
  | call x tmo =>
    simp only [step, Option.some.injEq] at hstep
    subst hstep; exact mstep_same rfl
  | callAsync x tmo b =>
    simp only [step, Option.some.injEq] at hstep
    subst hstep; exact mstep_same rfl
  | sub j => exact subStep_master hstep
  | subSelect j c => exact subSelect_master hstep
  | subTimeout j => exact subTimeout_master hstep
  | loop k r =>
    simp only [step] at hstep
    cases hk : s.pool.masters[k]? with
    | none => simp [hk] at hstep
    | some mk =>
      simp only [hk] at hstep
      cases hl : loopStep mk r with
      | none => simp [hl] at hstep
      | some mk' =>
        simp only [hl, Option.map_some', Option.some.injEq] at hstep
        subst hstep
        exact mstep_of_set hk rfl (.loop r mk' hl)

theorem subStep_control {s s' : State} {j : Nat} (hstep : subStep s j = some s') :
    s'.closer = s.closer ∧ s'.pool.running = s.pool.running := by
  unfold subStep at hstep
  repeat' split at hstep
  all_goals first
    | (cases hstep; done)
    | (simp only [Option.some.injEq] at hstep; subst hstep
       simp [State.setSub, State.setMaster])

theorem subSelect_control {s s' : State} {j c : Nat} (hstep : subSelect s j c = some s') :
    s'.closer = s.closer ∧ s'.pool.running = s.pool.running := by
  unfold subSelect at hstep
  repeat' split at hstep
  all_goals first
    | (cases hstep; done)
    | (simp only [Option.some.injEq] at hstep; subst hstep
       simp [State.setSub, State.setMaster])

theorem subTimeout_control {s s' : State} {j : Nat} (hstep : subTimeout s j = some s') :
    s'.closer = s.closer ∧ s'.pool.running = s.pool.running := by
  unfold subTimeout at hstep
  repeat' split at hstep
  all_goals first
    | (cases hstep; done)
    | (simp only [Option.some.injEq] at hstep; subst hstep
       simp [State.setSub, State.setMaster])

/-- While the pool is running, a transition leaves the position of `Close` alone,
or is the entry of `Close`, or is a statement of `Close`. -/
theorem step_control {s s' : State} {a : Action} (hr : s.pool.running = 1)
    (hstep : step s a = some s') :
    (s'.closer = s.closer ∧ s'.pool.running = 1) ∨
    (s.closer = .idle ∧ s'.closer = .closeInput 0 ∧ s'.pool.running = 1) ∨
    closeStep s = some s' := by
  cases a with
  | tick =>
    simp only [step, Option.some.injEq] at hstep
    subst hstep; exact Or.inl ⟨rfl, hr⟩
  | run =>
    simp only [step] at hstep
    split at hstep
    · simp only [Option.some.injEq] at hstep
      subst hstep
      left
      simp [TaskPool.Run, TaskPool.isRunning, hr]
    · cases hstep
  | close =>
    simp only [step] at hstep
    split at hstep
    · rename_i hl
      simp only [Option.some.injEq] at hstep
      subst hstep
      right; left
      exact ⟨(lockFree_iff hl).1, by simp [closeEnter, TaskPool.isRunning, hr, State.setCloser],
        by simp [closeEnter, TaskPool.isRunning, hr, State.setCloser]⟩
    · cases hstep
  | closeStep => exact Or.inr (Or.inr hstep)
  | call x tmo =>
    simp only [step, Option.some.injEq] at hstep
    subst hstep; exact Or.inl ⟨rfl, hr⟩
  | callAsync x tmo b =>
    simp only [step, Option.some.injEq] at hstep
    subst hstep; exact Or.inl ⟨rfl, hr⟩
  | sub j =>
    have := subStep_control hstep
    exact Or.inl ⟨this.1, by rw [this.2]; exact hr⟩
  | subSelect j c =>
    have := subSelect_control hstep
    exact Or.inl ⟨this.1, by rw [this.2]; exact hr⟩
  | subTimeout j =>
    have := subTimeout_control hstep
    exact Or.inl ⟨this.1, by rw [this.2]; exact hr⟩
  | loop k r =>
    simp only [step] at hstep
    cases hk : s.pool.masters[k]? with
    | none => simp [hk] at hstep
    | some mk =>
      simp only [hk] at hstep
      cases hl : loopStep mk r with
      | none => simp [hl] at hstep
      | some mk' =>
        simp only [hl, Option.map_some', Option.some.injEq] at hstep
        subst hstep
        exact Or.inl ⟨rfl, hr⟩

theorem busy_cases {pc : LoopPc} (h : pc.busy = true) :
    (∃ x, pc = .job x) ∨ ∃ x, pc = .sendOutput x := by
  cases pc <;> simp [LoopPc.busy] at h
  · exact Or.inl ⟨_, rfl⟩
  · exact Or.inr ⟨_, rfl⟩

theorem busy_chans {m : taskMaster} (hb : MBase m) (h : m.loop.busy = true) :
    m.chReady = .opened ∧ m.chOutput = .opened := by
  have hch := hb.chans
  unfold ChansOk at hch
  rcases busy_cases h with ⟨x, hx⟩ | ⟨x, hx⟩ <;> simp only [hx] at hch <;> exact ⟨hch.1, hch.2.2⟩

/-- A statement of `Close` cannot get past the `join` of an abandoned
controller, and does not return. -/
theorem closeStep_stuck {ws : List Worker} {s s' : State} {i : Nat} {m : taskMaster}
    (hinv : Inv ws s) (hi : s.pool.masters[i]? = some m) (hbusy : m.loop.busy = true)
    (hcb : closerBefore s.closer i) (hstep : closeStep s = some s') :
    closerBefore s'.closer i ∧ s'.closer ≠ .idle ∧ s'.pool.running = s.pool.running := by
  obtain ⟨hb, _, _⟩ := hinv.mas i m hi
  obtain ⟨hcr, hco⟩ := busy_chans hb hbusy
  have hlt := lt_length_of_get hi
  unfold closeStep at hstep
  cases hcl : s.closer with
  | idle => simp [hcl] at hstep
  | closeInput k =>
    simp only [hcl] at hstep
    cases hk : s.pool.masters[k]? with
    | none =>
      simp only [hk, Option.some.injEq] at hstep
      subst hstep
      simp [State.setCloser, closerBefore]
    | some mk =>
      simp only [hk] at hstep
      split at hstep
      · simp only [Option.some.injEq] at hstep
        subst hstep
        simp [State.setCloser, State.setMaster, closerBefore]
      · cases hstep
  | storeOpen k =>
    simp only [hcl] at hstep
    cases hk : s.pool.masters[k]? with
    | none => simp [hk] at hstep
    | some mk =>
      simp only [hk, Option.some.injEq] at hstep
      subst hstep
      simp [State.setCloser, State.setMaster, closerBefore]
  | joinReady k =>
    simp only [hcl, closerBefore] at hstep hcb
    cases hk : s.pool.masters[k]? with
    | none =>
      have : s.pool.masters.length ≤ k := by
        rcases Nat.lt_or_ge k s.pool.masters.length with h1 | h1
        · rw [List.getElem?_eq_getElem h1] at hk; cases hk
        · exact h1
      omega
    | some mk =>
      simp only [hk] at hstep
      have hki : k ≠ i := by
        rintro rfl
        rw [hi] at hk; cases hk
        simp only [hcr] at hstep
        rcases busy_cases hbusy with ⟨x, hx⟩ | ⟨x, hx⟩ <;> simp [hx] at hstep
      have hlt' : k < i := by omega
      split at hstep
      · simp only [Option.some.injEq] at hstep
        subst hstep
        simp [State.setCloser, closerBefore, hlt']
      · split at hstep
        · simp only [Option.some.injEq] at hstep
          subst hstep
          simp [State.setCloser, State.setMaster, closerBefore, hlt']
        · cases hstep
      · cases hstep
  | joinOutput k b =>
    simp only [hcl, closerBefore] at hstep hcb
    cases hk : s.pool.masters[k]? with
    | none => simp [hk] at hstep
    | some mk =>
      simp only [hk] at hstep
      split at hstep
      · split at hstep <;> simp only [Option.some.injEq] at hstep <;> subst hstep
        · simp [State.setCloser, closerBefore]; omega
        · simp [State.setCloser, closerBefore, hcb]
      · split at hstep
        · simp only [Option.some.injEq] at hstep
          subst hstep
          simp [State.setCloser, State.setMaster, closerBefore]; omega
        · cases hstep
      · cases hstep
  | joinTerm k =>
    simp only [hcl, closerBefore] at hstep hcb
    cases hk : s.pool.masters[k]? with
    | none => simp [hk] at hstep
    | some mk =>
      simp only [hk, Option.some.injEq] at hstep
      subst hstep
      simp [State.setCloser, State.setMaster, closerBefore]; omega

/-- Once a controller is abandoned it stays so, whatever transition is taken. -/
theorem stuck_step {ws : List Worker} {s s' : State} {a : Action} {i n x y : Nat}
    (hinv : Inv ws s) (hst : Stuck i n x y s) (hstep : step s a = some s') :
    Stuck i n x y s' := by
  obtain ⟨hr, hcb, m, hi, hbusy, hown, hn, hx, hy⟩ := hst
  obtain ⟨hb, hc, hsh⟩ := hinv.mas i m hi
  have hctl : closerBefore s'.closer i ∧ s'.pool.running = 1 := by
    rcases step_control hr hstep with h | h | h
    · rw [h.1]; exact ⟨hcb, h.2⟩
    · rw [h.2.1]; exact ⟨trivial, h.2.2⟩
    · have := closeStep_stuck hinv hi hbusy hcb h
      exact ⟨this.1, by rw [this.2.2]; exact hr⟩
  obtain ⟨m', hi', hms⟩ := step_master hstep i m hi
  refine ⟨hctl.2, hctl.1, m', hi', ?_⟩
  cases hms with
  | same => exact ⟨hbusy, hown, hn, hx, hy⟩
  | loop r _ hl =>
    have hf := loopStep_frame hl
    have hsp := loopStep_spec hb hc hsh hl
    refine ⟨?_, by rw [hf.2.1]; exact hown, by rw [hf.2.2.2.2.2.2.2.2.2.1]; exact hn,
      by rw [hf.2.2.2.2.2.2.2.2.2.2.2.1]; exact hx, by rw [hf.2.2.2.2.2.2.2.2.2.2.2.2.1]; exact hy⟩
    rcases busy_cases hbusy with ⟨v, hv⟩ | ⟨v, hv⟩
    · rw [hsp.2.2.2.2.2.2.1 v hv]; rfl
    · exact absurd hv (hsp.2.2.2.2.2.2.2 v)
  | run hr' _ => exact absurd hr hr'
  | closeInput _ _ => exact ⟨hbusy, hown, hn, hx, hy⟩
  | storeOpen _ => exact ⟨hbusy, hown, hn, hx, hy⟩
  | joinReady _ _ hl => rw [hl] at hbusy; simp [LoopPc.busy] at hbusy
  | joinOutput b r hcl _ _ => rw [hcl] at hcb; simp [closerBefore] at hcb
  | joinTerm hcl => rw [hcl] at hcb; simp [closerBefore] at hcb
  | claim _ _ _ _ _ hl => rw [hl] at hbusy; simp [LoopPc.busy] at hbusy
  | send _ _ _ _ _ hl => rw [hl] at hbusy; simp [LoopPc.busy] at hbusy
  | recv j t r hj hp _ _ =>
    have hsub := hinv.sub j t hj
    simp only [SubOk, hp] at hsub
    obtain ⟨_, _, _, _, m0, hm0, ho0, _⟩ := hsub
    rw [hi] at hm0; cases hm0
    rw [hown] at ho0; cases ho0
  | release _ _ _ _ => exact ⟨hbusy, rfl, hn, hx, hy⟩

theorem stuck_exec {ws : List Worker} {i n x y : Nat} {acts : List Action} :
    ∀ {s s' : State}, Inv ws s → Stuck i n x y s → exec s acts = some s' →
      Inv ws s' ∧ Stuck i n x y s' := by
  induction acts with
  | nil =>
    intro s s' h hst he
    simp only [exec, Option.some.injEq] at he
    subst he; exact ⟨h, hst⟩
  | cons a as ih =>
    intro s s' h hst he
    simp only [exec] at he
    cases hs : step s a with
    | none => simp [hs] at he
    | some s1 =>
      simp only [hs, Option.some_bind] at he
      exact ih (inv_step h hs) (stuck_step h hst hs) he

/-- Issuing `n` asynchronous submissions in a row adds `n` to `pending` in
`int32` arithmetic and appends `n` new submissions. -/
theorem exec_callAsync (x : Data) (tmo : Option Int) (b : Bool) (n : Nat) :
    ∀ (s : State) (k : Int), s.pool.pending = wrapInt32 k →
      ∃ s', exec s (List.replicate n (.callAsync x tmo b)) = some s' ∧
        s'.pool.pending = wrapInt32 (k + n) ∧
        s'.subs = s.subs ++ List.replicate n (Sub.new x tmo (some b)) := by
  induction n with
  | zero =>
    intro s k hk
    exact ⟨s, rfl, by simpa using hk, by simp⟩
  | succ n ih =>
    intro s k hk
    obtain ⟨s', h1, h2, h3⟩ := ih
      { s with pool := { s.pool with pending := wrapInt32 (s.pool.pending + 1) }
               subs := s.subs ++ [Sub.new x tmo (some b)] } (k + 1)
      (by simp only; rw [hk, wrapInt32_wrap])
    refine ⟨s', ?_, ?_, ?_⟩
    · simp only [List.replicate_succ, exec, step, Option.some_bind]
      exact h1
    · rw [h2]
      congr 1
      push_cast
      ring
    · rw [h3]
      simp [List.replicate_succ, List.append_assoc]

/-- Submissions that were issued asynchronously and not yet scheduled are all
outstanding. -/
theorem new_counts (x : Data) (tmo : Option Int) (b : Bool) (n : Nat) :
    List.countP Sub.outstanding ([] : List Sub) +
        List.countP Sub.outstanding (List.replicate n (Sub.new x tmo (some b))) = n ∧
    List.countP Sub.isAsync ([] : List Sub) +
        List.countP Sub.isAsync (List.replicate n (Sub.new x tmo (some b))) = n := by
  simp [List.countP_replicate, Sub.outstanding, Sub.isAsync, Sub.new, SubPc.isFinished]

/-- The `int32` sum `0 + 2^31` is `-2^31`. -/
theorem wrapInt32_top : wrapInt32 (0 + ((2147483648 : Nat) : Int)) = -2147483648 := by
  unfold wrapInt32
  omega

/-- With a non-positive timeout whose difference with the elapsed time does not
underflow `int64`, the second timer delivers at the instant it is made. -/
theorem timer_at_once {a before d : Int} (hb : before ≤ a) (hd : d ≤ 0)
    (hu : -9223372036854775808 ≤ d - (a - before)) :
    timeAfter a (wrapInt64 (d - timeSince a before)) = a := by
  have : wrapInt64 (d - timeSince a before) ≤ 0 := by
    unfold wrapInt64 timeSince
    omega
  simp [timeAfter, this]

theorem engaged_owner {ws : List Worker} {s : State} {j i : Nat} {t : Sub} (hinv : Inv ws s)
    (hj : s.subs[j]? = some t) (he : t.pc.engaged i) :
    ∃ m, s.pool.masters[i]? = some m ∧ m.owner = some j := by
  have hsub := hinv.sub j t hj
  unfold SubOk at hsub
  rcases he with he | he | he <;> simp only [he] at hsub <;>
    (obtain ⟨_, _, _, _, m, hm, ho, _⟩ := hsub
     exact ⟨m, hm, ho⟩)

theorem masters_length {ws : List Worker} {s : State} (h : Inv ws s) :
    s.pool.masters.length = ws.length := by
  rw [← h.wk, List.length_map]

/-- A transition keeps: a controller that was never closed has had no
readiness signal received by `join`. -/
theorem joinRecv_step {ws : List Worker} {s s' : State} {a : Action} (hinv : Inv ws s)
    (hP : ∀ (i : Nat) (m : taskMaster), s.pool.masters[i]? = some m → m.closes = 0 →
      m.joinRecv = 0)
    (hstep : step s a = some s') :
    ∀ (i : Nat) (m' : taskMaster), s'.pool.masters[i]? = some m' → m'.closes = 0 →
      m'.joinRecv = 0 := by
  intro i m' hi' hc'
  have hinv' := inv_step hinv hstep
  have hlt : i < s.pool.masters.length := by
    rw [masters_length hinv, ← masters_length hinv']
    exact lt_length_of_get hi'
  obtain ⟨m'', hm'', hms⟩ := step_master hstep i _ (List.getElem?_eq_getElem hlt)
  rw [hi'] at hm''; cases hm''
  have hi := List.getElem?_eq_getElem hlt
  generalize s.pool.masters[i] = m at hi hms
  have hPm := hP i m hi
  cases hms with
  | same => exact hPm hc'
  | loop r _ hl =>
    have hf := loopStep_frame hl
    rw [hf.2.2.2.2.2.2.2.2.2.2.1]
    exact hPm (by rw [← hf.2.2.2.2.2.1]; exact hc')
  | run _ _ => exact hPm hc'
  | closeInput _ _ => exact hPm hc'
  | storeOpen _ => simp at hc'
  | joinReady hcl _ _ =>
    have hne : s.closer ≠ .idle := by simp [hcl]
    have hr := hinv.closing hne
    obtain ⟨_, hc, _⟩ := hinv.mas i m hi
    have hst : stageOf s.pool.running s.closer i = .shut := by simp [stageOf, hr, hcl]
    rw [hst] at hc
    simp only [CountOk] at hc
    have : m.closes = 0 := hc'
    omega
  | joinOutput _ _ _ _ _ => exact hPm hc'
  | joinTerm _ => exact hPm hc'
  | claim _ _ _ _ _ _ => exact hPm hc'
  | send _ _ _ _ _ _ => exact hPm hc'
  | recv _ _ _ _ _ _ _ => exact hPm hc'
  | release _ _ _ _ => exact hPm hc'

theorem joinRecv_exec {ws : List Worker} {acts : List Action} :
    ∀ {s s' : State}, Inv ws s →
      (∀ (i : Nat) (m : taskMaster), s.pool.masters[i]? = some m → m.closes = 0 →
        m.joinRecv = 0) →
      exec s acts = some s' →
      ∀ (i : Nat) (m : taskMaster), s'.pool.masters[i]? = some m → m.closes = 0 →
        m.joinRecv = 0 := by
  induction acts with
  | nil =>
    intro s s' _ hP he
    simp only [exec, Option.some.injEq] at he
    subst he; exact hP
  | cons a as ih =>
    intro s s' h hP he
    simp only [exec] at he
    cases hs : step s a with
    | none => simp [hs] at he
    | some s1 =>
      simp only [hs, Option.some_bind] at he
      exact ih (inv_step h hs) (joinRecv_step h hP hs) he

/-- Until a controller is closed for the first time, `join` has received none
of its readiness signals. -/
theorem never_closed_no_join {ws : List Worker} {s : State} (hs : Reachable ws s) :
    ∀ (i : Nat) (m : taskMaster), s.pool.masters[i]? = some m → m.closes = 0 →
      m.joinRecv = 0 := by
  obtain ⟨acts, he⟩ := hs
  refine joinRecv_exec (inv_init ws) ?_ he
  intro i m hi _
  simp only [State.init, NewCustomPool, List.getElem?_map] at hi
  cases hw : ws[i]? with
  | none => simp [hw] at hi
  | some w =>
    simp [hw] at hi
    subst hi
    rfl

/-! ## The claims -/

/-- C1. On a pool that is not running, `SendWork(x)` (`tmo = none`) and
`SendWorkWithTimeout(d, x)` (`tmo = some d`) run through `RLock`, the
`isRunning` test and `RUnlock`, return `(nil, ErrPoolNotRunning)`, and leave the
pool (running flag, controllers, select set, counters) and every other
goroutine as they were: no controller receives `x`.  Any submission that finds
the pool not running at its test takes that branch. -/
theorem c1_not_running_rejects (ws : List Worker) (s : State) (x : Data) (tmo : Option Int)
    (hs : Reachable ws s) (hr : s.pool.running ≠ 1) :
    exec s [.call x tmo, .sub s.subs.length, .sub s.subs.length, .sub s.subs.length] =
      some { s with subs := s.subs ++
        [{ Sub.new x tmo none with pc := .returned ⟨none, some .ErrPoolNotRunning⟩ }] } ∧
    ∀ (j : Nat) (t : Sub), s.subs[j]? = some t → t.pc = .locked →
      step s (.sub j) =
        some (s.setSub j { t with pc := .unlock ⟨none, some .ErrPoolNotRunning⟩ }) := by
  have hinv := reachable_inv hs
  have hcl : s.closer = .idle := by
    by_contra hne
    exact hr (hinv.closing hne)
  have hrun : s.pool.isRunning = false := by
    simp [TaskPool.isRunning, hr]
  constructor
  · simp [exec, step, subStep, get_append_last, Sub.new, hcl, hrun, State.setSub,
      set_append_last]
  · intro j t hj hp
    simp [step, subStep, hj, hp, hrun]

/-- Witness of C1: on a pool of one doubling worker that was never started,
`SendWorkWithTimeout(7, 5)` returns `(nil, ErrPoolNotRunning)` and the pool is
as before. -/
theorem c1_not_running_rejects_witness :
    exec (State.init (NewSimplePool 1 double)) [.call 5 (some 7), .sub 0, .sub 0, .sub 0] =
      some { State.init (NewSimplePool 1 double) with subs :=
        [{ Sub.new 5 (some 7) none with pc := .returned ⟨none, some .ErrPoolNotRunning⟩ }] } :=
  (c1_not_running_rejects [{ job := double, kind := .simple }]
    (State.init (NewSimplePool 1 double)) 5 (some 7) ⟨[], rfl⟩ (by decide)).1

/-- C2. `Run` returns `ErrPoolAlreadyRunning` exactly when the pool is running,
and then changes nothing.  Otherwise it returns nil and leaves the pool
running with the select set `[chReady 0, …, chReady (n-1)]`; every controller
gets fresh open channels, `open = 1` and one new loop at its first statement,
its previous loop (if any) has returned, so exactly one loop is alive for it
and none has leaked.  The state is any reachable one: before the first `Run`
or after a `Close`. -/
theorem c2_run (ws : List Worker) (s s' : State) (hs : Reachable ws s)
    (hstep : step s .run = some s') :
    (s.pool.Run.2 = some .ErrPoolAlreadyRunning ↔ s.pool.running = 1) ∧
    (s.pool.running = 1 → s' = s) ∧
    (s.pool.running ≠ 1 →
      s.pool.Run.2 = none ∧ s'.pool.running = 1 ∧
      s'.pool.selects = List.range s.pool.masters.length ∧
      s'.pool.masters.length = s.pool.masters.length ∧
      s'.closer = s.closer ∧ s'.subs = s.subs ∧
      ∀ (i : Nat) (m : taskMaster), s.pool.masters[i]? = some m →
        m.loop.alive = false ∧
        ∃ m', s'.pool.masters[i]? = some m' ∧ m' = m.run ∧ m'.loop = .poll ∧ m'.leaked = 0 ∧
          m'.runs = m.runs + 1 ∧ m'.chReady = .opened ∧ m'.chInput = .opened ∧
          m'.chOutput = .opened ∧ m'.openFlag = 1 ∧ m'.worker = m.worker) := by
  have hinv := reachable_inv hs
  simp only [step] at hstep
  split at hstep
  · simp only [Option.some.injEq] at hstep
    subst hstep
    refine ⟨?_, ?_, ?_⟩
    · by_cases hr : s.pool.running = 1 <;> simp [TaskPool.Run, TaskPool.isRunning, hr]
    · intro hr
      simp [TaskPool.Run, TaskPool.isRunning, hr]
    · intro hr
      refine ⟨?_, ?_, ?_, ?_, rfl, rfl, ?_⟩
      · simp [TaskPool.Run, TaskPool.isRunning, hr]
      · simp [TaskPool.Run, TaskPool.isRunning, hr, TaskPool.setRunning]
      · simp [TaskPool.Run, TaskPool.isRunning, hr, TaskPool.setRunning]
      · simp [TaskPool.Run, TaskPool.isRunning, hr, TaskPool.setRunning]
      · intro i m hi
        obtain ⟨hb, _, hsh⟩ := hinv.mas i m hi
        have hst : stageOf s.pool.running s.closer i = .stopped := by
          simp [stageOf, hr]
        rw [hst] at hsh
        simp only [ShapeOk] at hsh
        refine ⟨hsh.1, m.run, ?_, rfl, rfl, ?_, rfl, rfl, rfl, rfl, rfl, rfl⟩
        · simp [TaskPool.Run, TaskPool.isRunning, hr, TaskPool.setRunning, hi]
        · simp [taskMaster.run, hsh.1, hb.leaked]
  · cases hstep

/-- Witness of C2: the first `Run` of a pool of two doubling workers returns
nil and leaves it running with the select set `[chReady 0, chReady 1]`. -/
theorem c2_run_witness :
    (State.init (NewSimplePool 2 double)).pool.Run.2 = none ∧
    (State.init (NewSimplePool 2 double)).pool.Run.1.running = 1 ∧
    (State.init (NewSimplePool 2 double)).pool.Run.1.selects = [0, 1] := by
  have h := (c2_run [{ job := double, kind := .simple }, { job := double, kind := .simple }]
    (State.init (NewSimplePool 2 double))
    { State.init (NewSimplePool 2 double) with
      pool := (State.init (NewSimplePool 2 double)).pool.Run.1 }
    ⟨[], rfl⟩ rfl).2.2 (by decide)
  exact ⟨h.1, h.2.1, h.2.2.1⟩

/-- C3. `Close` returns `ErrPoolNotRunning` exactly when the pool is not running
at its test, and then changes nothing.  Otherwise it enters its loops with
every controller one `close` and one `join` short of its `run` calls; while it
is inside, no transition calls `run`, `close` is called on a controller only by
the first loop and `join` returns for it only at the end of `join`, after its
loop has returned; and the only statement by which `Close` returns is the end
of its second loop: it returns nil, the pool is stopped, and every controller
has `open = 0`, a closed input channel, a loop that has returned with `chReady`
and `chOutput` closed, and as many `close` calls and `join` returns as `run`
calls, so each was closed and joined exactly once. -/
theorem c3_close (ws : List Worker) (s : State) (hs : Reachable ws s) :
    ((closeEnter s).2 = some .ErrPoolNotRunning ↔ s.pool.running ≠ 1) ∧
    (s.pool.running ≠ 1 → (closeEnter s).1 = s) ∧
    (s.pool.running = 1 → (closeEnter s).2 = none ∧ (closeEnter s).1.closer ≠ .idle) ∧
    (s.pool.running = 1 → s.closer = .idle →
      ∀ (i : Nat) (m : taskMaster), s.pool.masters[i]? = some m →
        m.closes + 1 = m.runs ∧ m.joins + 1 = m.runs) ∧
    (s.closer ≠ .idle →
      ∀ (a : Action) (s' : State) (i : Nat) (m m' : taskMaster), step s a = some s' →
        s.pool.masters[i]? = some m → s'.pool.masters[i]? = some m' →
        m'.runs = m.runs ∧
        (m'.closes = m.closes ∨ (m'.closes = m.closes + 1 ∧ s.closer = .storeOpen i)) ∧
        (m'.joins = m.joins ∨
          (m'.joins = m.joins + 1 ∧ s.closer = .joinTerm i ∧ m.loop = .exited))) ∧
    (∀ s', closeStep s = some s' → s'.closer = .idle →
      s' = (closeExit s).1 ∧ (closeExit s).2 = none ∧ s'.pool.running = 0 ∧
      s'.pool.masters = s.pool.masters ∧
      ∀ (i : Nat) (m : taskMaster), s'.pool.masters[i]? = some m →
        m.loop = .exited ∧ m.chReady = .closed ∧ m.chOutput = .closed ∧
        m.chInput = .closed ∧ m.openFlag = 0 ∧ m.closes = m.runs ∧ m.joins = m.runs) := by
  have hinv := reachable_inv hs
  refine ⟨?_, ?_, ?_, ?_, ?_, ?_⟩
  · by_cases hr : s.pool.running = 1 <;> simp [closeEnter, TaskPool.isRunning, hr]
  · intro hr; simp [closeEnter, TaskPool.isRunning, hr]
  · intro hr; simp [closeEnter, TaskPool.isRunning, hr, State.setCloser]
  · intro hr hcl i m hi
    obtain ⟨_, hc, _⟩ := live_of_idle hinv hi hcl hr
    simp only [CountOk] at hc
    omega
  · intro hne a s' i m m' hstep hi hi'
    obtain ⟨m'', hm'', hms⟩ := step_master hstep i m hi
    rw [hi'] at hm''; cases hm''
    cases hms with
    | same => exact ⟨rfl, Or.inl rfl, Or.inl rfl⟩
    | loop r _ hl =>
      have hf := loopStep_frame hl
      exact ⟨hf.2.2.2.2.1, Or.inl hf.2.2.2.2.2.1, Or.inl hf.2.2.2.2.2.2.1⟩
    | run _ hl => exact absurd (lockFree_iff hl).1 hne
    | closeInput _ _ => exact ⟨rfl, Or.inl rfl, Or.inl rfl⟩
    | storeOpen hcl => exact ⟨rfl, Or.inr ⟨rfl, hcl⟩, Or.inl rfl⟩
    | joinReady _ _ _ => exact ⟨rfl, Or.inl rfl, Or.inl rfl⟩
    | joinOutput _ _ _ _ _ => exact ⟨rfl, Or.inl rfl, Or.inl rfl⟩
    | joinTerm hcl =>
      have hr := hinv.closing hne
      obtain ⟨_, _, hsh⟩ := hinv.mas i m hi
      have hst : stageOf s.pool.running s.closer i = .shutDone := by simp [stageOf, hr, hcl]
      rw [hst] at hsh
      simp only [ShapeOk] at hsh
      exact ⟨rfl, Or.inl rfl, Or.inr ⟨rfl, hcl, hsh.2.2.2⟩⟩
    | claim _ _ _ _ _ _ => exact ⟨rfl, Or.inl rfl, Or.inl rfl⟩
    | send _ _ _ _ _ _ => exact ⟨rfl, Or.inl rfl, Or.inl rfl⟩
    | recv _ _ _ _ _ _ _ => exact ⟨rfl, Or.inl rfl, Or.inl rfl⟩
    | release _ _ _ _ => exact ⟨rfl, Or.inl rfl, Or.inl rfl⟩
  · intro s' hstep hidle
    unfold closeStep at hstep
    cases hcl : s.closer with
    | idle => simp [hcl] at hstep
    | closeInput k =>
      simp only [hcl] at hstep
      cases hk : s.pool.masters[k]? with
      | none =>
        simp only [hk, Option.some.injEq] at hstep
        subst hstep; simp [State.setCloser] at hidle
      | some m =>
        simp only [hk] at hstep
        split at hstep <;> first
          | (cases hstep; done)
          | (simp only [Option.some.injEq] at hstep; subst hstep; simp [State.setCloser] at hidle)
    | storeOpen k =>
      simp only [hcl] at hstep
      cases hk : s.pool.masters[k]? with
      | none => simp [hk] at hstep
      | some m =>
        simp only [hk, Option.some.injEq] at hstep
        subst hstep; simp [State.setCloser] at hidle
    | joinOutput k b =>
      simp only [hcl] at hstep
      cases hk : s.pool.masters[k]? with
      | none => simp [hk] at hstep
      | some m =>
        simp only [hk] at hstep
        split at hstep
        · split at hstep <;> simp only [Option.some.injEq] at hstep <;> subst hstep <;>
            simp [State.setCloser] at hidle
        · split at hstep <;> first
            | (cases hstep; done)
            | (simp only [Option.some.injEq] at hstep; subst hstep
               simp [State.setCloser] at hidle)
        · cases hstep
    | joinTerm k =>
      simp only [hcl] at hstep
      cases hk : s.pool.masters[k]? with
      | none => simp [hk] at hstep
      | some m =>
        simp only [hk, Option.some.injEq] at hstep
        subst hstep; simp [State.setCloser] at hidle
    | joinReady k =>
      have hne : s.closer ≠ .idle := by simp [hcl]
      have hr := hinv.closing hne
      simp only [hcl] at hstep
      cases hk : s.pool.masters[k]? with
      | some m =>
        simp only [hk] at hstep
        split at hstep
        · simp only [Option.some.injEq] at hstep
          subst hstep; simp [State.setCloser] at hidle
        · split at hstep <;> first
            | (cases hstep; done)
            | (simp only [Option.some.injEq] at hstep; subst hstep
               simp [State.setCloser] at hidle)
        · cases hstep
      | none =>
        simp only [hk, Option.some.injEq] at hstep
        subst hstep
        refine ⟨rfl, rfl, rfl, rfl, ?_⟩
        intro i m hi
        have hi' : s.pool.masters[i]? = some m := hi
        have hge : s.pool.masters.length ≤ k := by
          rcases Nat.lt_or_ge k s.pool.masters.length with h1 | h1
          · rw [List.getElem?_eq_getElem h1] at hk; cases hk
          · exact h1
        have hlt := lt_length_of_get hi'
        have hik : i < k := by omega
        obtain ⟨hb, hc, hsh⟩ := hinv.mas i m hi'
        rw [hr, hcl] at hc hsh
        simp only [stageOf, if_true, hik, CountOk, ShapeOk] at hc hsh
        have hch := hb.chans
        simp only [ChansOk, hsh.2.2.2] at hch
        exact ⟨hsh.2.2.2, hch.1, hch.2.2, hsh.2.1, hsh.1, by omega, by omega⟩

/-- Witness of C3: `Close` of a running pool of one worker returns with the loop
exited and both channels closed. -/
theorem c3_close_witness :
    (closeExit closingState).1.pool.running = 0 ∧
    (closeExit closingState).1.pool.masters.map
      (fun m => (m.loop, m.chReady, m.chOutput, m.closes, m.joins, m.runs)) =
      [(.exited, .closed, .closed, 1, 1, 1)] := by
  have h := (c3_close [{ job := double, kind := .simple }] closingState
    ⟨[.run, .loop 0 true, .close, .closeStep, .closeStep, .closeStep, .closeStep,
     .loop 0 true, .loop 0 true, .loop 0 true, .closeStep, .closeStep, .closeStep,
     .closeStep], rfl⟩).2.2.2.2.2 (closeExit closingState).1 rfl rfl
  exact ⟨h.2.2.1, rfl⟩

/-- C4, as stated, fails.  On a pool that was never started
`SendWorkWithTimeout(0, 5)` returns `ErrPoolNotRunning`; on a running pool whose
worker is offering its readiness signal `reflect.Select` may return that case,
and the call then returns the result 10 with a nil error; and
`SendWorkWithTimeout(math.MinInt64, 5)` that claimed the worker one clock tick
after `before := time.Now()` computes `timeout - time.Since(before)` as
`2^63 - 1`, so that its second timer cannot fire and the call waits for the
worker. -/
theorem c4_counterexample :
    (exec (State.init (NewSimplePool 1 double)) [.call 5 (some 0), .sub 0, .sub 0, .sub 0]).map
      (fun s => s.subs.map fun t => t.pc) =
      some [.returned ⟨none, some .ErrPoolNotRunning⟩] ∧
    (exec (State.init (NewSimplePool 1 double))
      [.run, .loop 0 true, .call 5 (some 0), .sub 0, .sub 0, .subSelect 0 0, .sub 0, .sub 0,
       .loop 0 true, .sub 0, .sub 0]).map
      (fun s => s.subs.map fun t => t.pc) =
      some [.returned ⟨some 10, none⟩] ∧
    (exec (State.init (NewSimplePool 1 double))
      [.run, .loop 0 true, .call 5 (some (-9223372036854775808)), .sub 0, .sub 0, .tick,
       .subSelect 0 0, .sub 0, .sub 0]).map
      (fun s => (s.now, s.subs.map fun t => (t.pc, t.timer), (step s (.subTimeout 0)).isSome)) =
      some (1, [(.waitOutput 0, 9223372036854775807)], false) := by
  refine ⟨?_, ?_, ?_⟩ <;> decide

/-- C4, amended.  For `SendWorkWithTimeout(d, x)` with `d ≤ 0`, once the call
holds the read lock: on a pool that is not running it returns
`ErrPoolNotRunning`; inside `reflect.Select` the timer case can be taken at once
and gives `ErrJobTimedOut`, and it is the only case that can be taken when no
controller is blocked in its readiness send; after a claim the send on
`chInput` can proceed at once, and so can the evaluation of
`time.After(timeout - time.Since(before))`, whose timer fires at once provided
the `int64` subtraction does not underflow, that is `d - elapsed ≥ -2^63`; and
while the call waits for the result with `d - elapsed ≥ -2^63`, the timer case
can be taken at once and gives `ErrJobTimedOut`.  So unless the subtraction
underflows the call never waits for time to pass, and it returns
`ErrJobTimedOut` unless a select takes a controller case. -/
theorem c4_zero_timeout (ws : List Worker) (s : State) (j : Nat) (t : Sub) (d : Int)
    (hs : Reachable ws s) (hj : s.subs[j]? = some t) (ht : t.timeout = some d) (hd : d ≤ 0) :
    (t.pc = .locked → s.pool.running ≠ 1 →
      step s (.sub j) =
        some (s.setSub j { t with pc := .unlock ⟨none, some .ErrPoolNotRunning⟩ })) ∧
    (t.pc = .select →
      step s (.subSelect j s.pool.selects.length) =
        some (s.setSub j { t with pc := .unlock ⟨none, some .ErrJobTimedOut⟩ }) ∧
      ((∀ (i : Nat) (m : taskMaster), s.pool.masters[i]? = some m → m.loop ≠ .sendReady) →
        ∀ c s', step s (.subSelect j c) = some s' →
          s' = s.setSub j { t with pc := .unlock ⟨none, some .ErrJobTimedOut⟩ })) ∧
    (∀ i, t.pc = .sendInput i → ∃ s', step s (.sub j) = some s') ∧
    (∀ i, t.pc = .armTimer i →
      step s (.sub j) =
        some (s.setSub j { t with
          pc := .waitOutput i,
          timer := timeAfter s.now (wrapInt64 (d - timeSince s.now t.before)) }) ∧
      (-9223372036854775808 ≤ d - (s.now - t.before) →
        timeAfter s.now (wrapInt64 (d - timeSince s.now t.before)) = s.now)) ∧
    (∀ i, t.pc = .waitOutput i → -9223372036854775808 ≤ d - (s.now - t.before) →
      ∃ s', step s (.subTimeout j) = some s' ∧
        s'.subs[j]? = some { t with pc := .unlock ⟨none, some .ErrJobTimedOut⟩ }) := by
  have hinv := reachable_inv hs
  have hsub := hinv.sub j t hj
  have htm := hinv.tmr j t hj
  unfold SubOk at hsub
  unfold TimerOk at htm
  refine ⟨?_, ?_, ?_, ?_, ?_⟩
  · intro hp hr
    simp [step, subStep, hj, hp, TaskPool.isRunning, hr]
  · intro hp
    simp only [hp] at hsub htm
    obtain ⟨hcl, hr, hbef, _⟩ := hsub
    have htimer : t.timerReady s.now = true := by
      have h1 := htm d ht
      simp only [Sub.timerReady, ht, decide_eq_true_eq, h1, timeAfter, if_pos hd]
      exact hbef
    have hnone : s.pool.selects[s.pool.selects.length]? = none :=
      List.getElem?_eq_none (Nat.le_refl _)
    refine ⟨?_, ?_⟩
    · simp [step, subSelect, hj, hp, hnone, htimer]
    · intro hno c s' hstep
      simp only [step, subSelect, hj, hp] at hstep
      cases hc : s.pool.selects[c]? with
      | none =>
        simp only [hc] at hstep
        split at hstep
        · simp only [Option.some.injEq] at hstep
          exact hstep.symm
        · cases hstep
      | some i =>
        simp only [hc] at hstep
        cases hi : s.pool.masters[i]? with
        | none => simp [hi] at hstep
        | some m =>
          simp only [hi] at hstep
          obtain ⟨hb, _, hsh⟩ := live_of_idle hinv hi hcl hr
          simp only [ShapeOk] at hsh
          have hcr : m.chReady = .opened := (chans_input_opened hb.chans hsh.2.1).2.2.2.1
          simp only [hcr] at hstep
          have := hno i m hi
          cases hl : m.loop <;> simp only [hl] at hstep this <;> first
            | exact absurd rfl this
            | cases hstep
  · intro i hp
    simp only [hp] at hsub
    obtain ⟨hcl, hr, _, _, m, hi, _, hl⟩ := hsub
    obtain ⟨_, _, hsh⟩ := live_of_idle hinv hi hcl hr
    simp only [ShapeOk] at hsh
    simp [step, subStep, hj, hp, hi, hl, hsh.2.1]
  · intro i hp
    simp only [hp] at hsub
    obtain ⟨_, _, hbef, _⟩ := hsub
    refine ⟨?_, fun hu => timer_at_once hbef hd hu⟩
    simp [step, subStep, hj, hp, ht]
  · intro i hp hu
    simp only [hp] at hsub htm
    obtain ⟨hcl, hr, hbef, _, m, hi, _, hl⟩ := hsub
    obtain ⟨a, ha1, ha2, ha3⟩ := htm d ht
    have htimer : t.timerReady s.now = true := by
      simp only [Sub.timerReady, ht, decide_eq_true_eq, ha3]
      rw [timer_at_once ha1 hd (by omega)]
      exact ha2
    refine ⟨_, by simp [step, subTimeout, hj, hp, htimer, hi]; rfl, ?_⟩
    simp only [State.setSub, State.setMaster]
    exact get_set_self hj

/-- Witness of the amended C4: with no controller ready the call times out in
`reflect.Select`, and a call that handed its job over with no time elapsed can
time out in the second `select`. -/
theorem c4_zero_timeout_witness :
    step selectState (.subSelect 0 selectState.pool.selects.length) =
      some (selectState.setSub 0
        { data := 5, timeout := some 0, async := none,
          pc := .unlock ⟨none, some .ErrJobTimedOut⟩, before := 0, timer := 0,
          claimed := none }) ∧
    ∃ s', step waitingState (.subTimeout 0) = some s' ∧
      s'.subs[0]? = some
        { data := 5, timeout := some 0, async := none,
          pc := .unlock ⟨none, some .ErrJobTimedOut⟩, before := 0, timer := 0,
          claimed := some 0 } :=
  ⟨((c4_zero_timeout [{ job := double, kind := .simple }] selectState 0
      { data := 5, timeout := some 0, async := none, pc := .select, before := 0, timer := 0,
        claimed := none }
      0 ⟨[.run, .call 5 (some 0), .sub 0, .sub 0], rfl⟩ rfl rfl (Int.le_refl 0)).2.1 rfl).1,
   (c4_zero_timeout [{ job := double, kind := .simple }] waitingState 0
      { data := 5, timeout := some 0, async := none, pc := .waitOutput 0, before := 0,
        timer := 0, claimed := some 0 }
      0 ⟨[.run, .loop 0 true, .call 5 (some 0), .sub 0, .sub 0, .subSelect 0 0, .sub 0, .sub 0],
        rfl⟩ rfl rfl (Int.le_refl 0)).2.2.2.2 0 rfl (by decide)⟩

/-- C5. Whenever a submission holds or has returned a result with a nil
error, the result is `Job(x)` of the worker of the controller it claimed,
for its own input `x`; in a pool built by `NewSimplePool(n, f)` it is `f(x)`.
This holds in every reachable state, whatever the interleaving of submissions,
timeouts included. -/
theorem c5_round_trip (ws : List Worker) (s : State) (j : Nat) (t : Sub) (r : Ret)
    (hs : Reachable ws s) (hj : s.subs[j]? = some t)
    (hp : t.pc = .unlock r ∨ t.pc = .returned r ∨ t.pc = .afterDone r ∨ t.pc = .finished r)
    (he : r.err = none) :
    (∃ i w, t.claimed = some i ∧ ws[i]? = some w ∧ r.val = some (w.job t.data)) ∧
    ∀ (n : Nat) (f : Data → Data), NewCustomPool ws = NewSimplePool n f →
      r.val = some (f t.data) := by
  have hsub := (reachable_inv hs).sub j t hj
  have hret : RetOk ws t r := by
    unfold SubOk at hsub
    rcases hp with hp | hp | hp | hp <;> simp only [hp] at hsub
    · exact hsub.2
    · exact hsub
    · exact hsub.1
    · exact hsub
  obtain ⟨i, w, hc, hw, hv⟩ := hret he
  refine ⟨⟨i, w, hc, hw, hv⟩, ?_⟩
  intro n f hn
  have hws : ws = List.replicate n { job := f, kind := .simple } := by
    have := congrArg (fun p => p.masters.map (fun m => m.worker)) hn
    simpa [NewSimplePool, NewCustomPool, Function.comp_def] using this
  rw [hws] at hw
  have hlt := lt_length_of_get hw
  rw [List.getElem?_eq_getElem hlt] at hw
  simp at hw
  rw [hv, ← hw]

/-- Witness of C5: `SendWork(21)` on a pool built by `NewSimplePool(2, double)`
claims the second controller and returns `double 21`. -/
theorem c5_round_trip_witness :
    (⟨some 42, none⟩ : Ret).val = some (double 21) :=
  (c5_round_trip [{ job := double, kind := .simple }, { job := double, kind := .simple }]
    servedState 0
    { data := 21, timeout := none, async := none, pc := .returned ⟨some 42, none⟩, before := 0,
      timer := 0,
      claimed := some 1 }
    ⟨some 42, none⟩
    ⟨[.run, .loop 1 true, .call 21 none, .sub 0, .sub 0, .subSelect 0 1, .sub 0, .loop 1 true,
     .sub 0, .sub 0], rfl⟩ rfl (Or.inr (Or.inl rfl)) rfl).2 2 double rfl

/-- C6. In every reachable state, for every controller: the inputs it has
received exceed the results taken from it by one while its loop is between the
receive and the hand-over of the result, and by none otherwise, so at most one
job is in flight; a transition that gives it an input finds its loop at the
range receive with every earlier result taken.  The readiness signals it has
sent are as many as the submissions that claimed it plus the signals `join`
received, so each signal went to exactly one receiver, and until the controller
is closed for the first time each went to exactly one submission; a transition
that completes a readiness send is one send to one receiver, and `join` receives
only inside `Close`.  Two submissions that hold a claim on the same controller
are the same submission. -/
theorem c6_single_flight (ws : List Worker) (s : State) (hs : Reachable ws s) :
    (∀ (i : Nat) (m : taskMaster), s.pool.masters[i]? = some m →
      m.inputs = m.outputs + (if m.loop.busy then 1 else 0) ∧
      m.readySent = s.subs.countP (Sub.claims i) + m.joinRecv ∧
      (m.closes = 0 → m.readySent = s.subs.countP (Sub.claims i))) ∧
    (∀ (j1 j2 : Nat) (t1 t2 : Sub) (i : Nat), s.subs[j1]? = some t1 → s.subs[j2]? = some t2 →
      t1.pc.engaged i → t2.pc.engaged i → j1 = j2) ∧
    (∀ (a : Action) (s' : State) (i : Nat) (m m' : taskMaster), step s a = some s' →
      s.pool.masters[i]? = some m → s'.pool.masters[i]? = some m' →
      (m'.inputs ≠ m.inputs →
        m.inputs = m.outputs ∧ m'.inputs = m.inputs + 1 ∧ m.loop = .recvInput ∧
          ∃ x, m'.loop = .job x) ∧
      (m'.readySent ≠ m.readySent →
        m'.readySent = m.readySent + 1 ∧ m.loop = .sendReady ∧ m'.loop = .recvInput) ∧
      (m'.joinRecv ≠ m.joinRecv → s.closer = .joinReady i)) := by
  have hinv := reachable_inv hs
  refine ⟨?_, ?_, ?_⟩
  · intro i m hi
    refine ⟨(hinv.mas i m hi).1.flow, hinv.cnt i m hi, fun hc => ?_⟩
    have h0 := never_closed_no_join hs i m hi hc
    have h1 := hinv.cnt i m hi
    omega
  · intro j1 j2 t1 t2 i h1 h2 e1 e2
    obtain ⟨m1, hm1, ho1⟩ := engaged_owner hinv h1 e1
    obtain ⟨m2, hm2, ho2⟩ := engaged_owner hinv h2 e2
    rw [hm1] at hm2; cases hm2
    rw [ho1] at ho2
    exact Option.some.inj ho2
  · intro a s' i m m' hstep hi hi'
    obtain ⟨m'', hm'', hms⟩ := step_master hstep i m hi
    rw [hi'] at hm''; cases hm''
    have hflow := (hinv.mas i m hi).1.flow
    cases hms with
    | same => exact ⟨fun h => absurd rfl h, fun h => absurd rfl h, fun h => absurd rfl h⟩
    | loop r _ hl =>
      have hf := loopStep_frame hl
      exact ⟨fun h => absurd hf.2.2.2.2.2.2.2.2.2.2.2.1 h,
        fun h => absurd hf.2.2.2.2.2.2.2.2.2.1 h, fun h => absurd hf.2.2.2.2.2.2.2.2.2.2.1 h⟩
    | run _ _ => exact ⟨fun h => absurd rfl h, fun h => absurd rfl h, fun h => absurd rfl h⟩
    | closeInput _ _ =>
      exact ⟨fun h => absurd rfl h, fun h => absurd rfl h, fun h => absurd rfl h⟩
    | storeOpen _ => exact ⟨fun h => absurd rfl h, fun h => absurd rfl h, fun h => absurd rfl h⟩
    | joinReady hcl _ hl => exact ⟨fun h => absurd rfl h, fun _ => ⟨rfl, hl, rfl⟩, fun _ => hcl⟩
    | joinOutput _ _ _ _ _ =>
      exact ⟨fun h => absurd rfl h, fun h => absurd rfl h, fun h => absurd rfl h⟩
    | joinTerm _ => exact ⟨fun h => absurd rfl h, fun h => absurd rfl h, fun h => absurd rfl h⟩
    | claim _ _ _ _ _ hl =>
      exact ⟨fun h => absurd rfl h, fun _ => ⟨rfl, hl, rfl⟩, fun h => absurd rfl h⟩
    | send _ t _ _ _ hl =>
      refine ⟨fun _ => ⟨?_, rfl, hl, t.data, rfl⟩, fun h => absurd rfl h, fun h => absurd rfl h⟩
      simpa [hl, LoopPc.busy] using hflow
    | recv _ _ _ _ _ _ _ =>
      exact ⟨fun h => absurd rfl h, fun h => absurd rfl h, fun h => absurd rfl h⟩
    | release _ _ _ _ =>
      exact ⟨fun h => absurd rfl h, fun h => absurd rfl h, fun h => absurd rfl h⟩

/-- Witness of C6: with two submissions in flight on two controllers, the
first controller has received one input more than it has delivered results,
and its one readiness signal went to the one submission that claimed it. -/
theorem c6_single_flight_witness :
    (busyState.pool.masters.map fun m => (m.loop, m.inputs, m.outputs, m.readySent)) =
      [(.job 3, 1, 0, 1), (.recvInput, 0, 0, 1)] ∧
    (1 : Nat) = 0 + (if (LoopPc.job 3).busy then 1 else 0) ∧
    (1 : Nat) = busyState.subs.countP (Sub.claims 0) := by
  have h := (c6_single_flight
    [{ job := double, kind := .simple }, { job := double, kind := .simple }] busyState
    ⟨[.run, .loop 0 true, .loop 1 true, .call 3 none, .call 4 (some 9), .sub 0, .sub 0,
     .subSelect 0 0, .sub 1, .sub 1, .subSelect 1 1, .sub 0], rfl⟩).1 0
    { chReady := .opened, chInput := .opened, chOutput := .opened, openFlag := 1,
      worker := { job := double, kind := .simple }, loop := .job 3, leaked := 0,
      owner := some 0, viaBreak := false, runs := 1, closes := 0, joins := 0, inits := 0,
      terms := 0, readySent := 1, joinRecv := 0, inputs := 1, outputs := 0 } rfl
  exact ⟨by decide, h.1, h.2.2 rfl⟩

/-- C7, as stated, fails.  `pending` is an `int32`: after `2^31` calls of
`SendAsyncWork` on a pool that was never started, none of which has been
scheduled yet, `2^31` asynchronous submissions are outstanding and `Pending()`
is `-2^31`, which neither equals that number nor is `≥ 0`. -/
theorem c7_counterexample :
    ∃ s, exec (State.init (NewSimplePool 1 double))
        (List.replicate 2147483648 (.callAsync 0 none false)) = some s ∧
      s.subs.countP Sub.outstanding = 2147483648 ∧
      s.subs.countP Sub.isAsync = 2147483648 ∧
      s.pool.Pending = -2147483648 := by
  obtain ⟨s, h1, h2, h3⟩ := exec_callAsync 0 none false 2147483648
    (State.init (NewSimplePool 1 double)) 0 rfl
  have hc := new_counts 0 none false 2147483648
  have h0 : (State.init (NewSimplePool 1 double)).subs = [] := rfl
  rw [h0] at h3
  refine ⟨s, h1, ?_, ?_, ?_⟩
  · rw [h3, List.countP_append]
    exact hc.1
  · rw [h3, List.countP_append]
    exact hc.2
  · show s.pool.pending = _
    rw [h2]
    exact wrapInt32_top

/-- C7, amended. `Pending()` is the `int32` value of the number of asynchronous
submissions that were issued and whose goroutine has not exited.  That number
never exceeds the number issued; as long as it is below `2^31` (the range of
`int32`) `Pending()` equals it, so `0 ≤ Pending() ≤ issued`; and `Pending()` is
0 once every asynchronous submission has finished. -/
theorem c7_pending (ws : List Worker) (s : State) (hs : Reachable ws s) :
    s.pool.Pending = wrapInt32 (s.subs.countP Sub.outstanding) ∧
    s.subs.countP Sub.outstanding ≤ s.subs.countP Sub.isAsync ∧
    (s.subs.countP Sub.outstanding < 2147483648 →
      s.pool.Pending = s.subs.countP Sub.outstanding ∧ 0 ≤ s.pool.Pending ∧
      s.pool.Pending ≤ s.subs.countP Sub.isAsync) ∧
    ((∀ t ∈ s.subs, t.isAsync = true → t.pc.isFinished = true) → s.pool.Pending = 0) := by
  have hp := (reachable_inv hs).pend
  have hle : s.subs.countP Sub.outstanding ≤ s.subs.countP Sub.isAsync := by
    apply List.countP_mono_left
    intro t _ ht
    simp only [Sub.outstanding, Bool.and_eq_true] at ht
    exact ht.1
  refine ⟨hp, hle, ?_, ?_⟩
  · intro hlt
    have h1 : s.pool.Pending = s.subs.countP Sub.outstanding := by
      show s.pool.pending = _
      rw [hp]; unfold wrapInt32; omega
    refine ⟨h1, by rw [h1]; omega, by rw [h1]; exact_mod_cast hle⟩
  · intro hall
    have h0 : s.subs.countP Sub.outstanding = 0 := by
      rw [List.countP_eq_zero]
      intro t ht
      simp only [Sub.outstanding, Bool.and_eq_true, Bool.not_eq_true', not_and,
        Bool.not_eq_false]
      exact hall t ht
    show s.pool.pending = 0
    rw [hp, h0]; rfl

/-- Witness of C7: with one of three asynchronous submissions still
outstanding `Pending()` is 1. -/
theorem c7_pending_witness :
    asyncState.pool.Pending = 1 ∧ asyncState.subs.countP Sub.outstanding = 1 ∧
    asyncState.subs.countP Sub.isAsync = 3 := by
  have h := c7_pending [{ job := double, kind := .simple }] asyncState
    ⟨[.callAsync 1 none false, .callAsync 2 (some 3) true, .callAsync 3 none false,
     .sub 0, .sub 0, .sub 0, .sub 0, .sub 1, .sub 1, .sub 1, .sub 1, .sub 1], rfl⟩
  have hc : asyncState.subs.countP Sub.outstanding = 1 := by decide
  refine ⟨?_, hc, by decide⟩
  have := (h.2.2.1 (by rw [hc]; decide)).1
  rw [this, hc]; rfl

/-- C8. For a worker that implements `AdvancedWorker`: the calls of `Terminate`
never outnumber those of `Initialize` and lag at most one behind; while the
loop is alive (in particular at every `Job` call) exactly one `Initialize` is
not yet matched by a `Terminate`; a transition that calls `Initialize` is `run`,
taken when no loop of the controller is alive and before the new loop's first
statement; a transition that calls `Terminate` is the end of `join`, taken
after the loop has returned, and it matches the one open `Initialize`. -/
theorem c8_lifecycle (ws : List Worker) (s : State) (i : Nat) (m : taskMaster)
    (hs : Reachable ws s) (hi : s.pool.masters[i]? = some m)
    (ha : m.worker.isAdvanced = true) :
    m.terms ≤ m.inits ∧ m.inits ≤ m.terms + 1 ∧
    (m.loop.alive = true → m.inits = m.terms + 1) ∧
    (∀ x, m.loop = .job x → m.inits = m.terms + 1) ∧
    ∀ (a : Action) (s' : State) (m' : taskMaster), step s a = some s' →
      s'.pool.masters[i]? = some m' →
      (m'.inits = m.inits ∨
        (m.loop.alive = false ∧ m' = m.run ∧ m'.loop = .poll ∧ m'.inits = m.inits + 1 ∧
          m.inits = m.terms ∧ m'.terms = m.terms)) ∧
      (m'.terms = m.terms ∨
        (s.closer = .joinTerm i ∧ m.loop = .exited ∧ m'.loop = .exited ∧
          m'.terms = m.terms + 1 ∧ m'.inits = m.inits ∧ m'.terms = m'.inits)) := by
  have hinv := reachable_inv hs
  obtain ⟨hb, hc, hsh⟩ := hinv.mas i m hi
  have hin := hb.inits
  have hte := hb.terms
  simp only [ha, if_true] at hin hte
  have hcount : m.runs = m.joins ∨ m.runs = m.joins + 1 := by
    cases hst : stageOf s.pool.running s.closer i <;> simp only [hst, CountOk] at hc <;> omega
  have halive : m.loop.alive = true → m.inits = m.terms + 1 := by
    intro hal
    cases hst : stageOf s.pool.running s.closer i <;>
      simp only [hst, CountOk, ShapeOk] at hc hsh
    · rw [hal] at hsh; exact absurd hsh.1 (by simp)
    · omega
    · omega
    · omega
    · omega
    · omega
    · omega
    · rw [hsh.2.2.2] at hal; simp [LoopPc.alive] at hal
  refine ⟨by omega, by omega, halive, ?_, ?_⟩
  · intro x hx
    exact halive (by simp [hx, LoopPc.alive])
  · intro a s' m' hstep hi'
    obtain ⟨m'', hm'', hms⟩ := step_master hstep i m hi
    rw [hi'] at hm''; cases hm''
    cases hms with
    | same => exact ⟨Or.inl rfl, Or.inl rfl⟩
    | loop r _ hl =>
      have := loopStep_frame hl
      exact ⟨Or.inl this.2.2.2.2.2.2.2.1, Or.inl this.2.2.2.2.2.2.2.2.1⟩
    | run hr hl =>
      refine ⟨Or.inr ?_, Or.inl rfl⟩
      have hst : stageOf s.pool.running s.closer i = .stopped := by simp [stageOf, hr]
      rw [hst] at hc hsh
      simp only [CountOk, ShapeOk] at hc hsh
      refine ⟨hsh.1, rfl, rfl, ?_, by omega, rfl⟩
      simp [taskMaster.run, ha]
    | closeInput _ _ => exact ⟨Or.inl rfl, Or.inl rfl⟩
    | storeOpen _ => exact ⟨Or.inl rfl, Or.inl rfl⟩
    | joinReady _ _ _ => exact ⟨Or.inl rfl, Or.inl rfl⟩
    | joinOutput _ _ _ _ _ => exact ⟨Or.inl rfl, Or.inl rfl⟩
    | joinTerm hcl =>
      refine ⟨Or.inl rfl, Or.inr ?_⟩
      have hne : s.closer ≠ .idle := by simp [hcl]
      have hr := hinv.closing hne
      have hst : stageOf s.pool.running s.closer i = .shutDone := by simp [stageOf, hr, hcl]
      rw [hst] at hc hsh
      simp only [CountOk, ShapeOk] at hc hsh
      refine ⟨hcl, hsh.2.2.2, hsh.2.2.2, ?_, rfl, ?_⟩
      · simp [ha]
      · simp [ha]; omega
    | claim _ _ _ _ _ _ => exact ⟨Or.inl rfl, Or.inl rfl⟩
    | send _ _ _ _ _ _ => exact ⟨Or.inl rfl, Or.inl rfl⟩
    | recv _ _ _ _ _ _ _ => exact ⟨Or.inl rfl, Or.inl rfl⟩
    | release _ _ _ _ => exact ⟨Or.inl rfl, Or.inl rfl⟩

/-- Witness of C8: during a `Job` call of an advanced worker `Initialize` has
been called once and `Terminate` not yet. -/
theorem c8_lifecycle_witness :
    (advancedState.pool.masters.map fun m => (m.loop, m.inits, m.terms)) = [(.job 4, 1, 0)] ∧
    ((0 : Nat) ≤ 1 ∧ (1 : Nat) ≤ 0 + 1) := by
  have h := c8_lifecycle [{ job := double, kind := .advanced }] advancedState 0
    { chReady := .opened, chInput := .opened, chOutput := .opened, openFlag := 1,
      worker := { job := double, kind := .advanced }, loop := .job 4, leaked := 0,
      owner := some 0, viaBreak := false, runs := 1, closes := 0, joins := 0, inits := 1,
      terms := 0, readySent := 1, joinRecv := 0, inputs := 1, outputs := 0 }
    ⟨[.run, .loop 0 false, .loop 0 true, .loop 0 true, .call 4 none, .sub 0, .sub 0,
     .subSelect 0 0, .sub 0], rfl⟩ rfl rfl
  exact ⟨rfl, h.1, h.2.1⟩

/-- C9, as stated, fails.  One worker whose `Ready()` only ever returned false;
`Close` has closed `chInput` and stored `open = 0` while the loop was in its
poll.  The loop then leaves the poll by `break` and sends on `chReady`: `join`
receives the signal (`readySent = 1`) and the loop is at the range over
`chInput`, not exited. -/
theorem c9_counterexample :
    (exec (State.init (NewCustomPool [{ job := double, kind := .basic }]))
      [.run, .loop 0 false, .close, .closeStep, .closeStep, .closeStep]).map
      (fun s => s.pool.masters.map fun m => (m.loop, m.openFlag, m.readySent)) =
      some [(.chk, 0, 0)] ∧
    (exec (State.init (NewCustomPool [{ job := double, kind := .basic }]))
      [.run, .loop 0 false, .close, .closeStep, .closeStep, .closeStep, .loop 0 false]).map
      (fun s => s.pool.masters.map fun m => (m.loop, m.openFlag, m.readySent)) =
      some [(.sendReady, 0, 0)] ∧
    (exec (State.init (NewCustomPool [{ job := double, kind := .basic }]))
      [.run, .loop 0 false, .close, .closeStep, .closeStep, .closeStep, .loop 0 false,
       .closeStep]).map
      (fun s => s.pool.masters.map fun m => (m.loop, m.openFlag, m.readySent)) =
      some [(.recvInput, 0, 1)] := by
  refine ⟨?_, ?_, ?_⟩ <;> decide

/-- C9, amended.  When the poll ends because `open == 0` is observed while
`Ready()` is false, the loop goes on to `p.chReady <- 1`.  While it is blocked
there after such a `break`, a `Close` holds the write lock and no `reflect.Select`
of a submission can return, so only `join` can take the signal.  The loop
reaches `close(p.chReady)` only from the range over `chInput`, when that
channel is closed.  Every readiness signal taken by a submission was sent
after `Ready()` returned true. -/
theorem c9_poll_break (ws : List Worker) (s : State) (i : Nat) (m : taskMaster)
    (hs : Reachable ws s) (hi : s.pool.masters[i]? = some m) :
    (m.loop = .chk → m.openFlag = 0 →
      ∀ r, loopStep m r = some { m with loop := .sendReady, viaBreak := true }) ∧
    (m.loop = .sendReady → m.viaBreak = true →
      s.closer ≠ .idle ∧ ∀ j c, subSelect s j c = none) ∧
    (∀ r m', loopStep m r = some m' → m'.loop = .closeReady →
      m.loop = .recvInput ∧ m.chInput = .closed) ∧
    (∀ j c s' m', subSelect s j c = some s' → s'.pool.masters[i]? = some m' →
      m'.readySent ≠ m.readySent → m.loop = .sendReady ∧ m.viaBreak = false ∧
        m'.loop = .recvInput) := by
  have hinv := reachable_inv hs
  obtain ⟨hb, hc, hsh⟩ := hinv.mas i m hi
  refine ⟨?_, ?_, ?_, ?_⟩
  · intro hl ho r
    simp [loopStep, hl, ho]
  · intro hl hv
    have hne : s.closer ≠ .idle := by
      intro hcl
      rcases hinv.run01 with hr | hr
      · have hst : stageOf s.pool.running s.closer i = .stopped := by simp [stageOf, hr]
        rw [hst] at hsh
        simp only [ShapeOk, hl, LoopPc.alive] at hsh
        exact absurd hsh.1 (by simp)
      · have hst : stageOf s.pool.running s.closer i = .live := by simp [stageOf, hr, hcl]
        rw [hst] at hsh
        simp only [ShapeOk] at hsh
        have := hsh.2.2 hl
        rw [hv] at this; cases this
    refine ⟨hne, ?_⟩
    intro j c
    unfold subSelect
    cases hj : s.subs[j]? with
    | none => rfl
    | some t =>
      have hfree := subs_free hinv hne j t hj
      cases hp : t.pc <;> simp only [hp]
      simp [hp, SubPc.holdsRLock] at hfree
  · intro r m' hstep hl'
    unfold loopStep at hstep
    cases hl : m.loop <;> simp only [hl] at hstep <;> try cases hstep
    · split at hstep
      · split at hstep <;> cases hstep <;> simp at hl'
      · cases hstep
    · split at hstep <;> cases hstep <;> simp at hl'
    · split at hstep
      · rename_i hci
        exact ⟨rfl, hci⟩
      · cases hstep
    · simp at hl'
    · split at hstep
      · cases hstep; simp at hl'
      · cases hstep
    · split at hstep
      · cases hstep; simp at hl'
      · cases hstep
  · intro j c s' m' hstep hi' hne
    obtain ⟨m'', hm'', hms⟩ := subSelect_master hstep i m hi
    rw [hi'] at hm''; cases hm''
    have hsel : ∃ t, s.subs[j]? = some t ∧ t.pc = .select := by
      unfold subSelect at hstep
      cases hj : s.subs[j]? with
      | none => simp [hj] at hstep
      | some t =>
        simp only [hj] at hstep
        cases hp : t.pc <;> simp only [hp] at hstep <;> first
          | exact ⟨t, rfl, hp⟩
          | cases hstep
    obtain ⟨t, hj, hp⟩ := hsel
    have hsub := hinv.sub j t hj
    simp only [SubOk, hp] at hsub
    have hlive := live_of_idle hinv hi hsub.1 hsub.2.1
    have hshape := hlive.2.2
    simp only [ShapeOk] at hshape
    cases hms with
    | same => exact absurd rfl hne
    | loop r _ hl => exact absurd (loopStep_frame hl).2.2.2.2.2.2.2.2.2.1 hne
    | run hr _ => exact absurd hsub.2.1 hr
    | closeInput hcl _ => rw [hsub.1] at hcl; cases hcl
    | storeOpen hcl => rw [hsub.1] at hcl; cases hcl
    | joinReady hcl _ _ => rw [hsub.1] at hcl; cases hcl
    | joinOutput _ _ hcl _ _ => rw [hsub.1] at hcl; cases hcl
    | joinTerm hcl => rw [hsub.1] at hcl; cases hcl
    | claim j' t' hj' hp' hcr hl =>
      exact ⟨hl, hshape.2.2 hl, rfl⟩
    | send _ _ _ _ _ _ => exact absurd rfl hne
    | recv _ _ _ _ _ _ _ => exact absurd rfl hne
    | release _ _ _ _ => exact absurd rfl hne

/-- Witness of the amended C9: the loop that observes `open == 0` in its poll
moves on to the readiness send. -/
theorem c9_poll_break_witness :
    loopStep breakMaster false = some { breakMaster with loop := .sendReady, viaBreak := true } :=
  (c9_poll_break [{ job := double, kind := .basic }] breakState 0 breakMaster
    ⟨[.run, .loop 0 false, .close, .closeStep, .closeStep, .closeStep], rfl⟩ rfl).1 rfl rfl false

/-- C10. Let a `SendWorkWithTimeout` call give up in its second `select`
(the timer case, after its job went to controller `i`): it returns
`ErrJobTimedOut`.  From then on, in every state the program can reach: the loop
of controller `i` is inside `Job` or blocked in `p.chOutput <- …`, where it has
no statement left to execute alone; its channels stay open; it sends no
further readiness signal and receives no further input; no submission ever
claims it; the pool stays running, so a `Close` that is called passes its test;
no statement of `Close` returns; and when `join` of controller `i` is reached
it is blocked in `<-p.chReady`. -/
theorem c10_abandoned (ws : List Worker) (s s1 : State) (j i : Nat) (t : Sub) (m : taskMaster)
    (hs : Reachable ws s) (hj : s.subs[j]? = some t) (hp : t.pc = .waitOutput i)
    (hi : s.pool.masters[i]? = some m) (hstep : step s (.subTimeout j) = some s1) :
    s1.subs[j]? = some { t with pc := .unlock ⟨none, some .ErrJobTimedOut⟩ } ∧
    ∀ acts s2, exec s1 acts = some s2 →
      s2.pool.running = 1 ∧
      (∃ m2, s2.pool.masters[i]? = some m2 ∧ m2.loop.busy = true ∧ m2.owner = none ∧
        m2.readySent = m.readySent ∧ m2.inputs = m.inputs ∧ m2.outputs = m.outputs ∧
        m2.chReady = .opened ∧ m2.chOutput = .opened ∧
        (∀ r x, m2.loop = .sendOutput x → loopStep m2 r = none)) ∧
      (∀ (j' : Nat) (t' : Sub), s2.subs[j']? = some t' → ¬ t'.pc.engaged i) ∧
      (closeEnter s2).2 = none ∧
      (∀ s3, closeStep s2 = some s3 → s3.closer ≠ .idle) ∧
      (s2.closer = .joinReady i → closeStep s2 = none) := by
  have hinv := reachable_inv hs
  have hinv1 := inv_step hinv hstep
  have hsub := hinv.sub j t hj
  simp only [SubOk, hp] at hsub
  obtain ⟨hcl, hr, _, _, m0, hm0, ho0, hl0⟩ := hsub
  rw [hi] at hm0; cases hm0
  have hbusy : m.loop.busy = true := by
    rcases hl0 with h | h <;> simp [h, LoopPc.busy]
  simp only [step, subTimeout, hj, hp, hi] at hstep
  split at hstep
  · simp only [Option.some.injEq] at hstep
    subst hstep
    have hst1 : Stuck i m.readySent m.inputs m.outputs
        ((s.setMaster i { m with owner := none }).setSub j
          { t with pc := .unlock ⟨none, some .ErrJobTimedOut⟩ }) := by
      refine ⟨hr, ?_, _, get_set_self hi, hbusy, rfl, rfl, rfl, rfl⟩
      simp [State.setSub, State.setMaster, hcl, closerBefore]
    refine ⟨get_set_self hj, ?_⟩
    intro acts s2 he
    obtain ⟨hinv2, hr2, hcb2, m2, hi2, hb2, ho2, hn2, hx2, hy2⟩ := stuck_exec hinv1 hst1 he
    obtain ⟨hmb2, _, _⟩ := hinv2.mas i m2 hi2
    obtain ⟨hcr2, hco2⟩ := busy_chans hmb2 hb2
    refine ⟨hr2, ⟨m2, hi2, hb2, ho2, hn2, hx2, hy2, hcr2, hco2, ?_⟩, ?_, ?_, ?_, ?_⟩
    · intro r x hx
      simp [loopStep, hx]
    · intro j' t' hj' he'
      have hs' := hinv2.sub j' t' hj'
      unfold SubOk at hs'
      rcases he' with he' | he' | he' <;> simp only [he'] at hs' <;>
        (obtain ⟨_, _, _, _, mx, hmx, hox, _⟩ := hs'
         rw [hi2] at hmx; cases hmx
         rw [ho2] at hox; cases hox)
    · simp [closeEnter, TaskPool.isRunning, hr2]
    · intro s3 h3
      exact (closeStep_stuck hinv2 hi2 hb2 hcb2 h3).2.1
    · intro hc2
      rcases busy_cases hb2 with ⟨x, hx⟩ | ⟨x, hx⟩ <;> simp [closeStep, hc2, hi2, hcr2, hx]
  · cases hstep

/-- Witness of C10: after the timeout, the caller returns, `Job` finishes and
`Close` closes the controller; `join` is then blocked on `chReady` while the
loop is blocked sending the result 10. -/
theorem c10_abandoned_witness :
    (exec abandonedState [.sub 0, .loop 0 true, .close, .closeStep, .closeStep, .closeStep]).map
      (fun s => (s.closer, s.pool.masters.map fun m => m.loop)) =
      some (.joinReady 0, [.sendOutput 10]) ∧
    closeStep ((exec abandonedState
      [.sub 0, .loop 0 true, .close, .closeStep, .closeStep, .closeStep]).getD abandonedState) =
      none := by
  have h := (c10_abandoned [{ job := double, kind := .simple }] waitingState abandonedState 0 0
    { data := 5, timeout := some 0, async := none, pc := .waitOutput 0, before := 0, timer := 0,
      claimed := some 0 }
    { chReady := .opened, chInput := .opened, chOutput := .opened, openFlag := 1,
      worker := { job := double, kind := .simple }, loop := .job 5, leaked := 0,
      owner := some 0, viaBreak := false, runs := 1, closes := 0, joins := 0, inits := 0,
      terms := 0, readySent := 1, joinRecv := 0, inputs := 1, outputs := 0 }
    ⟨[.run, .loop 0 true, .call 5 (some 0), .sub 0, .sub 0, .subSelect 0 0, .sub 0, .sub 0],
      rfl⟩
    rfl rfl rfl rfl).2
    [.sub 0, .loop 0 true, .close, .closeStep, .closeStep, .closeStep]
    ((exec abandonedState
      [.sub 0, .loop 0 true, .close, .closeStep, .closeStep, .closeStep]).getD abandonedState)
    rfl
  exact ⟨by decide, h.2.2.2.2.2 rfl⟩

end Pool
